import Mathlib

/-!
Verification development for the bit-addressing core of the `binfield`
library (`src/binfield/binfield.py`).

The Python runtime objects are shallowly embedded as follows.

* A `BinField` *class* is a pair of optional `_size_` / `_mask_` attributes
  (`makeType` embeds the metaclass validation that produces them), plus an
  optional resolved mapping (embedded separately, see `FieldDef` below).
* A `BinField` *instance* is either a root object owning its value, or a
  child produced by `_getslice_`, holding a link `(parent, offset)` plus the
  generated child class's size and mask.  Since a linked child recomputes its
  value from the parent on every read (`_value_` getter) and pushes every
  write up to the parent (`_value_` setter), the only observable mutable
  state of a whole parent chain is the root's stored integer.  We therefore
  model the heap as a single natural number `s` (the root's stored value) and
  an access path `View` from the root; a child's private cache is write-only
  in the source and is not modelled.
* Python integers in reachable states are non-negative, so values are `Nat`;
  the places where the source can observe a negative intermediate
  (`__iadd__`, `__add__`, and the `stop - start` width check of `_setslice_`)
  are computed in `Int`.
* Writers return `(new root value, optional raised error)`; the returned
  state is the state at the moment the exception leaves the function, so the
  no-partial-mutation property of the source is a provable statement.
-/

namespace Binfield

/-- Python truthiness of an optional non-negative integer attribute such as
`self._size_` or `self._mask_`: `None` and `0` are falsy. -/
def truthy : Option Nat → Bool
  | none => false
  | some n => n != 0

/-- Fuel-driven helper for `bitLen`; structural on the fuel so that the
kernel can evaluate it. -/
def blAux : Nat → Nat → Nat
  | 0, _ => 0
  | fuel + 1, n => if n = 0 then 0 else blAux fuel (n / 2) + 1

/-- Python `int.bit_length()` on a non-negative integer: the number of binary
digits needed to represent `n`, with `bitLen 0 = 0`. -/
def bitLen (n : Nat) : Nat := blAux n n

/-- Python `int.bit_length()` on a possibly negative integer: Python takes the
bit length of the absolute value. -/
def intBitLen (i : Int) : Nat := bitLen i.natAbs

/-- `_get_mask(start, end)` (`binfield.py` line 115-122): the mask
`(1 << end) - (1 << start)` with exactly bits `[start, end)` set
(when `start ≤ end`). -/
def get_mask (start stop : Nat) : Nat := (1 <<< stop) - (1 <<< start)

/-- Python `x & ~m` for non-negative `x` and `m`: clears the bits of `m`
from `x`.  Written as `x ^^^ (x &&& m)` (clearing a subset of the set bits),
which the kernel can evaluate; `testBit_andNot` below proves it has exactly
the and-not semantics bit by bit. -/
def andNot (x m : Nat) : Nat := x ^^^ (x &&& m)

theorem testBit_andNot (x m i : Nat) :
    (andNot x m).testBit i = (x.testBit i && !(m.testBit i)) := by
  simp only [andNot, Nat.testBit_xor, Nat.testBit_and]
  cases x.testBit i <;> cases m.testBit i <;> rfl

/-- The mask reduction step `if self._mask_: new_value &= self._mask_` used by
`__init__` and the `_value_` setter (note Python truthiness: a zero mask is
*not* applied). -/
def applyMask (mk : Option Nat) (x : Nat) : Nat :=
  if truthy mk then x &&& mk.getD 0 else x

/-- Errors raised by the embedded fragment of the source.  `overlap` carries
the colliding-bits mask from the message of the `IndexError` raised by
`check_update_mapping_mask` (a Python integer, negative when the accumulated
mask went negative through a malformed nested index), `trailing` the
offending key of the `IndexError` raised for a mapping entry after a
non-ending slice, `negShift` the `ValueError: negative shift count` from
`_get_mask` on a negative bound, and `keyTypeErr` the `TypeError`/`KeyError`
family raised while forming or comparing sort keys (a nested `_index_` that
cannot form a slice, a `None` start compared by `sorted`, or `1 << None`). -/
inductive Err where
  | nonInt
  | overflow
  | dataTooWide
  | negative
  | indexOut
  | sizeNotPositive
  | unexpectedData
  | negShift
  | keyTypeErr
  | overlap (key : String) (bits : Int)
  | trailing (key : String)
deriving DecidableEq

/-- Python truthiness of an optional integer (`None` and `0` are falsy). -/
def truthyI : Option Int → Bool
  | none => false
  | some n => n != 0

/-- Python's arbitrary-precision bitwise and on possibly negative integers
(two's complement): a negative integer `x` denotes the complement
`~k = -(k+1)` of the non-negative `k = -x-1`, so
`a & ~k` clears the bits of `k` from `a`, and `~j & ~k = ~(j | k)`. -/
def pyAnd (x y : Int) : Int :=
  if 0 ≤ x then
    if 0 ≤ y then ((x.toNat &&& y.toNat : Nat) : Int)
    else ((andNot x.toNat (-y - 1).toNat : Nat) : Int)
  else
    if 0 ≤ y then ((andNot y.toNat (-x - 1).toNat : Nat) : Int)
    else -(((-x - 1).toNat ||| (-y - 1).toNat : Nat) : Int) - 1

/-- Python's arbitrary-precision bitwise or on possibly negative integers:
`a | ~k = ~(k & ~a)` and `~j | ~k = ~(j & k)`. -/
def pyOr (x y : Int) : Int :=
  if 0 ≤ x then
    if 0 ≤ y then ((x.toNat ||| y.toNat : Nat) : Int)
    else -((andNot (-y - 1).toNat x.toNat : Nat) : Int) - 1
  else
    if 0 ≤ y then -((andNot (-x - 1).toNat y.toNat : Nat) : Int) - 1
    else -(((-x - 1).toNat &&& (-y - 1).toNat : Nat) : Int) - 1

theorem pyAnd_coe (x y : Nat) : pyAnd (x : Int) (y : Int) = ((x &&& y : Nat) : Int) := by
  simp [pyAnd, Int.natCast_nonneg]

theorem pyOr_coe (x y : Nat) : pyOr (x : Int) (y : Int) = ((x ||| y : Nat) : Int) := by
  simp [pyOr, Int.natCast_nonneg]

example : pyAnd (-30) 6 = 2 := by decide

example : pyOr 1 (-30) = -29 := by decide

/-- The `__parent_link` chain of a `BinField` instance.  A root instance
carries its class's `_size_` and `_mask_`; a child created by `_getslice_`
carries its parent, the generated child class's `_size_` (`stop - start`) and
`_mask_` (`cls_mask`), and the link offset (`start`).  Children always have
concrete size and mask because `_get_child_cls_` passes both to `makecls`. -/
inductive View where
  | root (size : Option Nat) (mask : Option Nat)
  | child (parent : View) (csize : Nat) (cmask : Nat) (offset : Nat)
deriving DecidableEq

/-- The `_size_` attribute of the instance's class. -/
def View.sizeOpt : View → Option Nat
  | .root sz _ => sz
  | .child _ csz _ _ => some csz

/-- The `_mask_` attribute of the instance's class. -/
def View.maskOpt : View → Option Nat
  | .root _ mk => mk
  | .child _ _ cm _ => some cm

/-- `_value_` getter (lines 482-491): a linked child always recomputes
`(parent._value_ & (self._mask_ << offset)) >> offset` from its parent; a
root returns the stored value `s`. -/
def readView (s : Nat) : View → Nat
  | .root _ _ => s
  | .child p _ cm off => (readView s p &&& (cm <<< off)) >>> off

/-- `_value_` setter (lines 494-508): reduce the new value by the own mask
when that mask is truthy; for a linked child, write
`int(parent) & ~(mask << offset) | (new << offset)` into the parent through
the parent's full-slice assignment `obj[:] = ...` (which first performs the
parent's `_setslice_` size check), recursing up the chain; a root stores the
value.  Returns the root state after execution together with the raised
error, if any; on an error the state is the one reached when the exception
propagates. -/
def setValue (s : Nat) : View → Nat → Nat × Option Err
  | .root _ mk, x => (applyMask mk x, none)
  | .child p _ cm off, x =>
      let x2 := applyMask (some cm) x
      let np := andNot (readView s p) (cm <<< off) ||| (x2 <<< off)
      if truthy p.sizeOpt ∧ p.sizeOpt.getD 0 < bitLen np then (s, some .overflow)
      else setValue s p np

/-- The copy scenario of `_setslice_` (lines 869-875): `v[:] = x` checks the
value's bit length against a truthy `_size_` and then assigns `_value_`. -/
def setsliceFull (s : Nat) (v : View) (x : Nat) : Nat × Option Err :=
  if truthy v.sizeOpt ∧ v.sizeOpt.getD 0 < bitLen x then (s, some .overflow)
  else setValue s v x

/-- `_bit_size_` (lines 468-475): the configured size when truthy, otherwise
the bit length of the current (re-resolved) value. -/
def bitSize (s : Nat) (v : View) : Nat :=
  if truthy v.sizeOpt then v.sizeOpt.getD 0 else bitLen (readView s v)

/-- `_setslice_` (lines 861-895) for a slice key with optional bounds.
Checks in source order: stop index beyond a truthy size; data wider than
`stop` bits; data wider than `stop - start` when `start` is truthy (this
difference is formed in `Int`, as in Python); then assigns
`self._value_ & ~get_mask | (value << start)` through the `_value_` setter. -/
def setslice (s : Nat) (v : View) (kstart kstop : Option Nat) (x : Nat) :
    Nat × Option Err :=
  if kstart = none ∧ kstop = none then setsliceFull s v x
  else if truthy v.sizeOpt ∧ truthy kstop ∧ v.sizeOpt.getD 0 < kstop.getD 0 then
    (s, some .overflow)
  else
    let stop := if truthy kstop then kstop.getD 0 else bitSize s v
    let start := if truthy kstart then kstart.getD 0 else 0
    if stop < bitLen x then (s, some .dataTooWide)
    else if truthy kstart ∧ (stop : Int) - (start : Int) < (bitLen x : Int) then
      (s, some .dataTooWide)
    else
      let x2 := x <<< start
      let gm := get_mask start stop
      let gm2 := if truthy v.maskOpt then gm &&& v.maskOpt.getD 0 else gm
      setValue s v (andNot (readView s v) gm2 ||| x2)

/-- `_getslice_` (lines 784-818) for a slice with at least one bound (the
all-`None` copy case returns a detached copy and is not a child link).
Computes the effective bounds, the slice mask (intersected with the own mask
when that is not `None`), the child class mask `mask >> start`, and links the
child at `(self, start)`.  `makecls` rejects the generated class when
`stop - start` is not positive (in that corner Python forms a negative size
or mask and raises the same way). -/
def getslice (s : Nat) (v : View) (istart istop : Option Nat) :
    Except Err View :=
  if truthy istart ∧ truthy v.sizeOpt ∧ v.sizeOpt.getD 0 < istart.getD 0 then
    .error .indexOut
  else
    let stop :=
      if truthy istop ∧ (¬ truthy v.sizeOpt ∨ istop.getD 0 < v.sizeOpt.getD 0)
      then istop.getD 0 else bitSize s v
    let start := if truthy istart then istart.getD 0 else 0
    let m := get_mask start stop
    let m2 := if v.maskOpt ≠ none then m &&& v.maskOpt.getD 0 else m
    if stop - start = 0 then .error .sizeNotPositive
    else .ok (.child v (stop - start) (m2 >>> start) start)

/-- A resolved mapping entry as stored in `_mapping_` after
`_prepare_mapping` succeeded: a single bit index, a step-free slice (tuples
were converted to slices; a slice whose `None` start every consumer treats
as the falsy `0` is normalised to start `0`), or a nested mapping carrying
its resolved children and its `_index_` bounds.  The `pair` constructor
represents a raw tuple; it never occurs in a resolved mapping, and the
`__getitem__`/`__setitem__` embeddings below treat it as unresolvable. -/
inductive FieldDef where
  | bit (i : Nat)
  | pair (a b : Nat)
  | slc (a : Nat) (b : Option Nat)
  | nested (a b : Nat) (children : List (String × FieldDef))

/-- The reserved `_index_` value of a raw nested mapping: a two-int sequence
(which both `slice(*_index_)` and `_get_mask(*_index_)` accept), a three-int
sequence (`slice(*_index_)` accepts it while forming the sort key, but
`_get_mask(*_index_)` then raises `TypeError` in the loop), or anything else
— `broken` stands for every value on which `slice(*_index_)` raises while
the sort keys are formed (wrong arity, not a sequence, a missing key). -/
inductive NIdx where
  | pair (a b : Int)
  | triple (a b c : Int)
  | broken

/-- A raw schema entry as accepted by `_mapping_filter` (lines 73-101):
**any** integer bit index (negative ones included), a two-element integer
pair (tuple/list), a step-free slice with optional start and stop, or a
nested mapping whose reserved `_index_` is carried in the constructor
(the filter accepts the `_index_` key with *any* value). -/
inductive RawDef where
  | bit (i : Int)
  | pair (a b : Int)
  | slc (a b : Option Int)
  | nested (idx : NIdx) (children : List (String × RawDef))

mutual
/-- `_mapping_filter` (lines 73-101) on a single entry value: any integer is
accepted, pairs and fully-bounded slices need `0 ≤ start < stop`, slices
with a missing bound are accepted as-is, and nested mappings recursively
filter their children (the reserved `_index_` key is always accepted,
whatever its value). -/
def validEntry : RawDef → Bool
  | .bit _ => true
  | .pair a b => decide (0 ≤ a) && decide (a < b)
  | .slc (some a) (some b) => decide (0 ≤ a) && decide (a < b)
  | .slc _ _ => true
  | .nested _ ch => validList ch

/-- `_mapping_filter` over all entries of a mapping. -/
def validList : List (String × RawDef) → Bool
  | [] => true
  | kv :: rest => validEntry kv.2 && validList rest
end

/-- `_get_start_index` (lines 125-134) on one entry, as `sorted` evaluates
it while decorating the items: a nested entry with a broken `_index_`
raises there; a slice with a `None` start yields the key `None`. -/
def startKey : RawDef → Except Err (Option Int)
  | .bit i => .ok (some i)
  | .pair a _ => .ok (some a)
  | .slc a _ => .ok a
  | .nested (.pair a _) _ => .ok (some a)
  | .nested (.triple a _ _) _ => .ok (some a)
  | .nested .broken _ => .error .keyTypeErr

/-- The decoration pass of `sorted(mapping.items(), key=_get_start_index)`:
all keys are computed, in list order, before any comparison happens. -/
def extractKeys : List (String × RawDef) → Except Err Unit
  | [] => .ok ()
  | kv :: rest =>
      match startKey kv.2 with
      | .error e => .error e
      | .ok _ => extractKeys rest

/-- Whether some entry's sort key is `None` (a slice with no start).  With
two or more entries, Python's sort compares every key at least once, and
comparing `None` with an integer (or `None`) raises `TypeError`. -/
def hasNoneKey : List (String × RawDef) → Bool
  | [] => false
  | (_, .slc none _) :: _ => true
  | _ :: rest => hasNoneKey rest

/-- The total sort key used once the decoration pass succeeded and no `None`
key can be compared (the `getD`/`broken` defaults are never reached then; a
singleton list is never compared at all). -/
def startIndex : RawDef → Int
  | .bit i => i
  | .pair a _ => a
  | .slc a _ => a.getD 0
  | .nested (.pair a _) _ => a
  | .nested (.triple a _ _) _ => a
  | .nested .broken _ => 0

/-- Stable insertion of an entry in front of the first later-listed entry
whose start is not smaller; `sortByStart` built from it yields the same list
as Python's stable `sorted(..., key=_get_start_index)`. -/
def insByStart (x : String × RawDef) :
    List (String × RawDef) → List (String × RawDef)
  | [] => [x]
  | y :: ys =>
      if startIndex y.2 < startIndex x.2 then y :: insByStart x ys
      else x :: y :: ys

/-- The comparison phase of `sorted` (stable sort by start index). -/
def sortByStart (l : List (String × RawDef)) : List (String × RawDef) :=
  l.foldr insByStart []

theorem sizeOf_insByStart (x : String × RawDef)
    (l : List (String × RawDef)) :
    sizeOf (insByStart x l) = 1 + sizeOf x + sizeOf l := by
  induction l with
  | nil => simp [insByStart]
  | cons y ys ih =>
      by_cases h : startIndex y.2 < startIndex x.2
      · simp [insByStart, h, ih]
        omega
      · simp [insByStart, h]

theorem sizeOf_sortByStart (l : List (String × RawDef)) :
    sizeOf (sortByStart l) = sizeOf l := by
  induction l with
  | nil => rfl
  | cons y ys ih => simp [sortByStart, List.foldr] at ih ⊢; rw [sizeOf_insByStart, ih]

mutual
/-- `_prepare_mapping` (lines 137-196): reject entries that fail
`_mapping_filter` (`ValueError`); form the sort keys in list order (a broken
nested `_index_` raises there); raise the `TypeError` Python's `sorted`
produces when a `None` key would be compared (two or more entries with some
slice lacking a start); then walk the stable-sorted entries. -/
def prepare (l : List (String × RawDef)) :
    Except Err (List (String × FieldDef)) :=
  if validList l then
    match extractKeys l with
    | .error e => .error e
    | .ok _ =>
        if 2 ≤ l.length ∧ hasNoneKey l = true then .error .keyTypeErr
        else prepLoop 0 false (sortByStart l)
  else .error .unexpectedData
termination_by 2 * sizeOf l + 1
decreasing_by
  simp_wf
  rw [sizeOf_sortByStart]
  omega

/-- The `for m_key, m_val in sorted(...)` loop of `_prepare_mapping`, with
the accumulated `mapping_mask` as a Python integer (it can go negative
through a descending nested `_index_`) and the `cycle_end` flag.  Every mask
is formed as `(1 << stop) - (1 << start)` — a negative bound raises the
negative-shift `ValueError` — and checked against the accumulated mask with
`Err.overlap` carrying `mapping_mask & mask`; an entry after an open-ended
slice raises `Err.trailing`; nested mappings recurse; resolved entries are
accumulated (tuples become slices, nested children are resolved). -/
def prepLoop (mm : Int) (cycleEnd : Bool) :
    List (String × RawDef) → Except Err (List (String × FieldDef))
  | [] => .ok []
  | (k, v) :: rest =>
    if cycleEnd then .error (.trailing k)
    else
      match v with
      | .pair a b =>
          if b < 0 ∨ a < 0 then .error .negShift
          else
            let m : Int := ((1 <<< b.toNat : Nat) : Int) - ((1 <<< a.toNat : Nat) : Int)
            if pyAnd mm m ≠ 0 then .error (.overlap k (pyAnd mm m))
            else do
              let r ← prepLoop (pyOr mm m) false rest
              pure ((k, FieldDef.slc a.toNat (some b.toNat)) :: r)
      | .bit i =>
          if i < 0 then .error .negShift
          else
            let m : Int := ((1 <<< (i.toNat + 1) : Nat) : Int) - ((1 <<< i.toNat : Nat) : Int)
            if pyAnd mm m ≠ 0 then .error (.overlap k (pyAnd mm m))
            else do
              let r ← prepLoop (pyOr mm m) false rest
              pure ((k, FieldDef.bit i.toNat) :: r)
      | .slc sa sb =>
          if truthyI sb then
            let b : Int := sb.getD 0
            let a : Int := sa.getD 0
            if b < 0 ∨ a < 0 then .error .negShift
            else
              let m : Int := ((1 <<< b.toNat : Nat) : Int) - ((1 <<< a.toNat : Nat) : Int)
              if pyAnd mm m ≠ 0 then .error (.overlap k (pyAnd mm m))
              else do
                let r ← prepLoop (pyOr mm m) false rest
                pure ((k, FieldDef.slc (sa.getD 0).toNat (sb.map Int.toNat)) :: r)
          else
            match sa with
            | none => .error .keyTypeErr
            | some a =>
                if a < 0 then .error .negShift
                else
                  let m : Int := ((1 <<< a.toNat : Nat) : Int)
                  if pyAnd mm m ≠ 0 then .error (.overlap k (pyAnd mm m))
                  else do
                    let r ← prepLoop mm true rest
                    pure ((k, FieldDef.slc a.toNat (sb.map Int.toNat)) :: r)
      | .nested .broken _ => .error .keyTypeErr
      | .nested (.triple _ _ _) _ => .error .keyTypeErr
      | .nested (.pair a b) ch =>
          if b < 0 ∨ a < 0 then .error .negShift
          else
            let m : Int := ((1 <<< b.toNat : Nat) : Int) - ((1 <<< a.toNat : Nat) : Int)
            if pyAnd mm m ≠ 0 then .error (.overlap k (pyAnd mm m))
            else do
              let sub ← prepare ch
              let r ← prepLoop (pyOr mm m) false rest
              pure ((k, FieldDef.nested a.toNat b.toNat sub) :: r)
termination_by l => 2 * sizeOf l
decreasing_by
  all_goals simp_wf
  all_goals omega
end

/-- `__getitem__` (lines 820-859) for a string key: look the name up in the
resolved `_mapping_` and reduce to the `_getslice_` call the source makes
(an integer becomes `[i, i+1)`, a nested block uses its `_index_` range). -/
def getitemStr (s : Nat) (v : View)
    (mp : Option (List (String × FieldDef))) (key : String) :
    Except Err View :=
  match mp with
  | none => .error .indexOut
  | some m =>
    match List.lookup key m with
    | some (.bit i) => getslice s v (some i) (some (i + 1))
    | some (.slc a b) => getslice s v (some a) b
    | some (.nested a b _) => getslice s v (some a) (some b)
    | some (.pair _ _) => .error .indexOut
    | none => .error .indexOut

/-- `_is_valid_slice` (lines 46-56) for a step-free slice in the modelled
non-negative domain. -/
def isValidSlice : Option Nat → Option Nat → Bool
  | some a, some b => decide (a < b)
  | _, _ => true

/-- Key shapes accepted by `__setitem__`. -/
inductive Key where
  | int (i : Nat)
  | slice (a b : Option Nat)
  | pairKey (a b : Nat)
  | name (k : String)
deriving DecidableEq

/-- A write payload: an integer, or anything else (rejected up front). -/
inductive Val where
  | int (n : Nat)
  | notInt
deriving DecidableEq

/-- `__setitem__` (lines 897-931): reject non-integer payloads with
`TypeError`; dispatch integer keys to `[i, i+1)`, valid slices and pairs to
`_setslice_`, and names through the resolved mapping (an unresolvable or
non-string-like key raises `IndexError`). -/
def setitem (s : Nat) (v : View) (mp : Option (List (String × FieldDef)))
    (k : Key) (val : Val) : Nat × Option Err :=
  match val with
  | .notInt => (s, some .nonInt)
  | .int n =>
    match k with
    | .int i => setslice s v (some i) (some (i + 1)) n
    | .slice a b =>
        if isValidSlice a b then setslice s v a b n else (s, some .indexOut)
    | .pairKey a b =>
        if a < b then setslice s v (some a) (some b) n else (s, some .indexOut)
    | .name key =>
      match mp with
      | none => (s, some .indexOut)
      | some m =>
        match List.lookup key m with
        | some (.bit i) => setslice s v (some i) (some (i + 1)) n
        | some (.slc a b) =>
            if isValidSlice (some a) b then setslice s v (some a) b n
            else (s, some .indexOut)
        | some (.nested a b _) =>
            if a < b then setslice s v (some a) (some b) n
            else (s, some .indexOut)
        | some (.pair _ _) => (s, some .indexOut)
        | none => (s, some .indexOut)

/-- `__iadd__` (lines 632-644): compute on the resolved value, raise
`OverflowError` when a truthy size is exceeded, then `ValueError` when the
result is negative, else assign through the `_value_` setter
(`__isub__` delegates here with the negated argument). -/
def iaddOp (s : Nat) (v : View) (o : Int) : Nat × Option Err :=
  let res : Int := (readView s v : Int) + o
  if truthy v.sizeOpt ∧ v.sizeOpt.getD 0 < intBitLen res then (s, some .overflow)
  else if res < 0 then (s, some .negative)
  else setValue s v res.toNat

/-- A `BinField` class's `_size_`/`_mask_` configuration. -/
structure VType where
  size : Option Nat
  mask : Option Nat
deriving DecidableEq

/-- The size/mask resolution of `BinFieldMeta.__new__` (lines 302-327) as
reached through `makecls`: a provided size must be positive and defaults the
mask to `(1 << size) - 1` unless a mask is given explicitly; a mask alone
derives the size `mask.bit_length()`.  Negative sizes and masks are outside
the `Nat` domain (Python rejects them with the analogous errors). -/
def makeType (size mask : Option Nat) : Except Err VType :=
  match size with
  | some sz =>
    if sz = 0 then .error .sizeNotPositive
    else
      match mask with
      | some m => .ok ⟨some sz, some m⟩
      | none => .ok ⟨some sz, some ((1 <<< sz) - 1)⟩
  | none =>
    match mask with
    | some m => .ok ⟨some (bitLen m), some m⟩
    | none => .ok ⟨none, none⟩

/-- The integer branch of `__init__` (lines 448-466): store the argument,
reduced by the class mask when that mask is truthy. -/
def init (t : VType) (x : Nat) : Nat := applyMask t.mask x

/-- Result of `__add__`: a plain demoted integer, or a fresh instance of the
same class holding the (mask-reduced) stored value. -/
inductive AddRes where
  | plain (r : Int)
  | view (stored : Nat)
deriving DecidableEq

/-- `__add__` (lines 652-663) on a detached instance of class `t` holding
value `s`: a negative result raises `ValueError`; a result whose bit length
exceeds a truthy size is returned as a plain integer; otherwise
`self.__class__(res)` builds a new instance. -/
def addOp (t : VType) (s : Nat) (o : Int) : Except Err AddRes :=
  let res : Int := (s : Int) + o
  if res < 0 then .error .negative
  else if truthy t.size ∧ t.size.getD 0 < intBitLen res then .ok (.plain res)
  else .ok (.view (init t res.toNat))

/-- The data `__eq__` and `__len__` can observe about an instance: the
identity of its class (`clsId`, with `0` standing for the base `BinField`
class and non-zero ids for generated classes), the class `_size_`/`_mask_`
attributes and resolved `_mapping_`, and the resolved `_value_` (for a
linked child this is the value recomputed through the parent link, so the
parent-link history itself is not part of the comparison). -/
structure Inst where
  clsId : Nat
  size : Option Nat
  mask : Option Nat
  mp : Option (List (String × FieldDef))
  val : Nat

/-- `_bit_size_` of an instance description. -/
def Inst.bits (a : Inst) : Nat :=
  if truthy a.size then a.size.getD 0 else bitLen a.val

/-- `__len__` (lines 477-480): `ceil(bit_size / 8)` with minimum 1 (the
float division of the source is exact in the modelled range). -/
def Inst.byteLen (a : Inst) : Nat :=
  let l := (a.bits + 7) / 8
  if l = 0 then 1 else l

/-- `__eq__` (lines 561-572) between two instances: an instance of the very
same generated class falls into the integer branch
(`isinstance(other, (int, self.__class__))`) and is compared by value alone;
and since every generated class subclasses the base `BinField` directly
(subclassing a generated class is forbidden by `SubMeta`), that branch also
fires whenever `self` is a base-class instance — `clsId = 0` stands for the
base class, non-zero ids for generated classes.  Otherwise value, resolved
mapping and byte length must all agree. -/
def eqBF (a b : Inst) : Prop :=
  if a.clsId = b.clsId ∨ a.clsId = 0 then a.val = b.val
  else a.val = b.val ∧ a.mp = b.mp ∧ a.byteLen = b.byteLen

/-- `__eq__` against a plain integer: the resolved value must match. -/
def eqInt (a : Inst) (n : Nat) : Prop := a.val = n

/-- The mutating operations on a view that the invariant claims range over:
full-value assignment `v[:] = x`, indexed/named writes (`__setitem__`),
in-place bitwise and/or/xor (lines 582-595), and in-place add/subtract
(lines 632-648). -/
inductive MutOp where
  | assign (x : Nat)
  | keyWrite (k : Key) (val : Val)
  | andEq (o : Nat)
  | orEq (o : Nat)
  | xorEq (o : Nat)
  | addEq (o : Int)
  | subEq (o : Int)

/-- Dispatch of a mutating operation; each path assigns through the
`_value_` setter. -/
def applyOp (s : Nat) (v : View) (mp : Option (List (String × FieldDef))) :
    MutOp → Nat × Option Err
  | .assign x => setsliceFull s v x
  | .keyWrite k val => setitem s v mp k val
  | .andEq o => setValue s v (readView s v &&& o)
  | .orEq o => setValue s v (readView s v ||| o)
  | .xorEq o => setValue s v (readView s v ^^^ o)
  | .addEq o => iaddOp s v o
  | .subEq o => iaddOp s v (-o)

/-! Helper lemmas about the embedded primitives. -/

theorem blAux_le_iff (fuel : Nat) :
    ∀ n k, n ≤ fuel → (blAux fuel n ≤ k ↔ n < 2 ^ k) := by
  induction fuel with
  | zero =>
      intro n k hn
      have h0 : n = 0 := Nat.le_zero.mp hn
      subst h0
      simp [blAux, Nat.two_pow_pos]
  | succ f ih =>
      intro n k hn
      by_cases h0 : n = 0
      · subst h0
        simp [blAux, Nat.two_pow_pos]
      · simp only [blAux, if_neg h0]
        cases k with
        | zero =>
            constructor
            · intro h
              exact absurd h (by omega)
            · intro h
              omega
        | succ j =>
            rw [Nat.succ_le_succ_iff]
            rw [ih (n / 2) j (by omega)]
            rw [Nat.pow_succ]
            exact Nat.div_lt_iff_lt_mul (by decide)

/-- `bitLen` is the usual bit length: `bitLen n ≤ k` iff `n < 2 ^ k`. -/
theorem bitLen_le (n k : Nat) : bitLen n ≤ k ↔ n < 2 ^ k :=
  blAux_le_iff n n k (Nat.le_refl n)

theorem lt_bitLen (n k : Nat) : k < bitLen n ↔ 2 ^ k ≤ n := by
  rw [← Nat.not_le, bitLen_le, Nat.not_lt]

/-- `_get_mask(start, stop)` rewritten as a shifted all-ones block. -/
theorem get_mask_eq_shift (a b : Nat) (h : a ≤ b) :
    get_mask a b = (2 ^ (b - a) - 1) <<< a := by
  simp only [get_mask, Nat.shiftLeft_eq, Nat.one_mul]
  rw [Nat.sub_mul, Nat.one_mul, ← Nat.pow_add]
  rw [Nat.sub_add_cancel h]

/-- The mask `_get_mask(start, stop)` has exactly bits `[start, stop)`. -/
theorem testBit_get_mask (a b i : Nat) (h : a ≤ b) :
    (get_mask a b).testBit i = decide (a ≤ i ∧ i < b) := by
  rw [get_mask_eq_shift a b h, Nat.testBit_shiftLeft, Nat.testBit_two_pow_sub_one]
  by_cases hai : a ≤ i
  · by_cases hib : i < b
    · simp [hai, hib]
      omega
    · simp [hai, hib]
      omega
  · simp [hai]

theorem get_mask_lt (a b N : Nat) (hb : b ≤ N) : get_mask a b < 2 ^ N := by
  simp only [get_mask, Nat.shiftLeft_eq, Nat.one_mul]
  have h1 : (2 : Nat) ^ b ≤ 2 ^ N := Nat.pow_le_pow_right (by decide) hb
  have h2 : (0 : Nat) < 2 ^ a := Nat.two_pow_pos a
  have h3 : (0 : Nat) < 2 ^ N := Nat.two_pow_pos N
  omega

/-! ### Claim C2: slice consistency and always-recompute reads (corrected:
`_getslice_` intersects the slice mask with the class `_mask_`, so a class
whose mask does not cover the slice window — e.g. an explicit `_mask_ = 0` —
reads `0` where the claim predicts the value's bits) -/

/-- `v[a:b]` on a root view with explicit size `N` and mask `m` yields the
linked child with size `b - a`, class mask `(get_mask a b & m) >> a` and
offset `a` (the slice mask is intersected with the own mask, which is not
`None`). -/
theorem getslice_root_mask (N m a b s : Nat) (hab : a < b) (hbN : b ≤ N) :
    getslice s (View.root (some N) (some m)) (some a) (some b) =
      .ok (View.child (View.root (some N) (some m))
            (b - a) ((get_mask a b &&& m) >>> a) a) := by
  by_cases ha : a = 0
  · subst ha
    by_cases hblt : b < N
    · simp [getslice, View.sizeOpt, View.maskOpt, truthy, hblt,
        show b ≠ 0 by omega, show N ≠ 0 by omega, show b - 0 ≠ 0 by omega]
    · have hbeq : b = N := by omega
      subst hbeq
      simp [getslice, View.sizeOpt, View.maskOpt, bitSize, truthy, hblt,
        show b ≠ 0 by omega, show b - 0 ≠ 0 by omega]
  · by_cases hblt : b < N
    · simp [getslice, View.sizeOpt, View.maskOpt, truthy, hblt, ha,
        show b ≠ 0 by omega, show N ≠ 0 by omega, show ¬(N < a) by omega,
        show b - a ≠ 0 by omega]
    · have hbeq : b = N := by omega
      subst hbeq
      simp [getslice, View.sizeOpt, View.maskOpt, bitSize, truthy, hblt, ha,
        show b ≠ 0 by omega, show ¬(b < a) by omega,
        show b - a ≠ 0 by omega]

/-- A bit set in a value `s` satisfying `s & ~m = 0` is set in `m`. -/
theorem testBit_of_andNot_eq_zero (s m i : Nat) (h : andNot s m = 0)
    (hi : s.testBit i = true) : m.testBit i = true := by
  have h2 : (andNot s m).testBit i = false := by
    rw [h]
    exact Nat.zero_testBit i
  rw [testBit_andNot, hi, Bool.true_and] at h2
  cases hmi : m.testBit i
  · rw [hmi] at h2
    exact absurd h2 (by decide)
  · rfl

/-- A bit set in `g` with `g & m = g` is set in `m`. -/
theorem testBit_of_and_self (g m i : Nat) (h : g &&& m = g)
    (hi : g.testBit i = true) : m.testBit i = true := by
  have h2 : (g &&& m).testBit i = g.testBit i := by rw [h]
  rw [Nat.testBit_and, hi, Bool.true_and] at h2
  exact h2

/-- The child class mask `(get_mask a b & m) >> a` shifted back left loses
nothing: `get_mask a b & m` has no bits below `a`. -/
theorem and_get_mask_shiftRL (a b m : Nat) (h : a ≤ b) :
    ((get_mask a b &&& m) >>> a) <<< a = get_mask a b &&& m := by
  apply Nat.eq_of_testBit_eq
  intro i
  rw [Nat.testBit_shiftLeft, Nat.testBit_shiftRight]
  by_cases hai : a ≤ i
  · have hsum : a + (i - a) = i := by omega
    simp [hai, hsum]
  · have h1 : (get_mask a b).testBit i = false := by
      rw [testBit_get_mask a b i h]
      simp
      omega
    simp [hai, Nat.testBit_and, h1]

/-- Counterexample to claim C2 as stated: a class built with `_size_ = 8` and
an explicit `_mask_ = 0` stores `0xFF` unmasked (the zero mask is falsy in
`__init__`), yet `v[0:4]` links a child whose mask was intersected with `0`,
so it reads `0` while the claim predicts `(255 & get_mask 0 4) >> 0 = 15`. -/
theorem C2_slice_consistency_cex :
    makeType (some 8) (some 0) = .ok ⟨some 8, some 0⟩ ∧
    init ⟨some 8, some 0⟩ 255 = 255 ∧
    getslice 255 (View.root (some 8) (some 0)) (some 0) (some 4) =
      .ok (View.child (View.root (some 8) (some 0)) 4 0 0) ∧
    readView 255 (View.child (View.root (some 8) (some 0)) 4 0 0) = 0 ∧
    (255 &&& get_mask 0 4) >>> 0 = 15 ∧ (0 : Nat) ≠ 15 :=
  ⟨rfl, rfl, rfl, rfl, by decide, by decide⟩

/-- Claim C2 (corrected): for a view `v` whose class has a truthy (non-zero)
mask `m` and any `0 ≤ a < b ≤ N`, *provided the root's stored value lies
inside `m`* (every store through the `_value_` setter of such a class
guarantees this), the child `v[a:b]` reads `(v.value & mask_for(a,b)) >> a`;
and since the read recomputes through the parent link at every call, the same
equation holds for the retained child at *every* later in-mask root state
`s2`, rather than a cached value.  Outside this domain the equation can fail:
see `C2_slice_consistency_cex`. -/
theorem C2_slice_consistency_amended (N m a b s : Nat) (hab : a < b)
    (hbN : b ≤ N) (hm : m ≠ 0) (hs : andNot s m = 0) :
    ∃ c, getslice s (View.root (some N) (some m)) (some a) (some b) = .ok c ∧
      readView s c = (s &&& get_mask a b) >>> a ∧
      ∀ s2, andNot s2 m = 0 → readView s2 c = (s2 &&& get_mask a b) >>> a := by
  have key : ∀ s2, andNot s2 m = 0 →
      readView s2 (View.child (View.root (some N) (some m)) (b - a)
        ((get_mask a b &&& m) >>> a) a) = (s2 &&& get_mask a b) >>> a := by
    intro s2 hs2
    simp only [readView]
    rw [and_get_mask_shiftRL a b m (Nat.le_of_lt hab)]
    have hand : s2 &&& (get_mask a b &&& m) = s2 &&& get_mask a b := by
      apply Nat.eq_of_testBit_eq
      intro i
      simp only [Nat.testBit_and]
      cases hs2i : s2.testBit i
      · simp
      · have hmi := testBit_of_andNot_eq_zero s2 m i hs2 hs2i
        simp [hmi]
    rw [hand]
  exact ⟨_, getslice_root_mask N m a b s hab hbN, key s hs, key⟩

/-- Witness for the corrected C2 at `N = 8`, `m = 6`, `a = 1`, `b = 4`,
current in-mask value 6. -/
theorem C2_slice_consistency_amended_witness :
    1 < 4 ∧ (4 : Nat) ≤ 8 ∧ (6 : Nat) ≠ 0 ∧ andNot 6 6 = 0 ∧
    ∃ c, getslice 6 (View.root (some 8) (some 6)) (some 1) (some 4) = .ok c ∧
      readView 6 c = (6 &&& get_mask 1 4) >>> 1 ∧
      ∀ s2, andNot s2 6 = 0 → readView s2 c = (s2 &&& get_mask 1 4) >>> 1 :=
  ⟨by decide, by decide, by decide, by decide,
    C2_slice_consistency_amended 8 6 1 4 6 (by decide) (by decide) (by decide)
      (by decide)⟩

/-! ### Claim C1: write-through to the parent with frame preservation
(corrected: the child class mask is the slice mask intersected with the own
`_mask_`, so a class mask that does not cover the slice window silently
drops the written bits) -/

theorem two_le_two_pow (k : Nat) (hk : k ≠ 0) : 2 ≤ 2 ^ k := by
  calc 2 = 2 ^ 1 := rfl
  _ ≤ 2 ^ k := Nat.pow_le_pow_right (by decide) (by omega)

/-- Counterexample to claim C1 as stated: a class with `_size_ = 8` and
explicit `_mask_ = 0x0F`.  The slice window `[4, 8)` lies entirely outside
the mask, so the child `c = v[4:8]` gets class mask `0`; writing `c[:] = 10`
(which fits in 4 bits) *succeeds* — the falsy child mask skips reduction, the
root setter reduces `0xAF & 0x0F` back to `15` — yet the re-read of the
retained child gives `0`, not `10`, and the root value is unchanged. -/
theorem C1_write_through_cex :
    makeType (some 8) (some 15) = .ok ⟨some 8, some 15⟩ ∧
    get_mask 4 8 &&& 15 = 0 ∧
    getslice 15 (View.root (some 8) (some 15)) (some 4) (some 8) =
      .ok (View.child (View.root (some 8) (some 15)) 4 0 4) ∧
    bitLen 10 ≤ 8 - 4 ∧
    setsliceFull 15 (View.child (View.root (some 8) (some 15)) 4 0 4) 10 =
      (15, none) ∧
    readView 15 (View.child (View.root (some 8) (some 15)) 4 0 4) = 0 ∧
    (0 : Nat) ≠ 10 :=
  ⟨rfl, by decide, rfl, by decide, rfl, rfl, by decide⟩

/-- When the class mask `m` covers the slice window `[a, b)` and the root
value lies inside `m`, the full-value write `c[:] = x` on the child
`c = v[a:b]` succeeds (for `x` fitting in `b - a` bits and an in-range root
value) and propagates `(parent & ~(mask << a)) | (x << a)` into the root. -/
theorem setsliceFull_child_mask (N m a b x s : Nat) (hab : a < b)
    (hbN : b ≤ N) (hm : m ≠ 0) (hwin : get_mask a b &&& m = get_mask a b)
    (hx : x < 2 ^ (b - a)) (hs : s < 2 ^ N) (hsm : andNot s m = 0) :
    setsliceFull s
      (View.child (View.root (some N) (some m))
        (b - a) (2 ^ (b - a) - 1) a) x
      = (andNot s (get_mask a b) ||| (x <<< a), none) := by
  have hcm0 : (2 : Nat) ^ (b - a) - 1 ≠ 0 := by
    have := two_le_two_pow (b - a) (by omega)
    omega
  have hx2 : x &&& (2 ^ (b - a) - 1) = x :=
    Nat.and_pow_two_sub_one_of_lt_two_pow hx
  have hgm : (2 ^ (b - a) - 1) <<< a = get_mask a b :=
    (get_mask_eq_shift a b (Nat.le_of_lt hab)).symm
  have hnp_lt : andNot s (get_mask a b) ||| (x <<< a) < 2 ^ N := by
    apply Nat.lt_pow_two_of_testBit
    intro i hi
    rw [Nat.testBit_or, testBit_andNot, Nat.testBit_shiftLeft]
    have hsbit : s.testBit i = false :=
      Nat.testBit_lt_two_pow
        (lt_of_lt_of_le hs (Nat.pow_le_pow_right (by decide) hi))
    have hxbit : x.testBit (i - a) = false :=
      Nat.testBit_lt_two_pow
        (lt_of_lt_of_le hx (Nat.pow_le_pow_right (by decide) (by omega)))
    simp [hsbit, hxbit]
  have hnp_m : (andNot s (get_mask a b) ||| (x <<< a)) &&& m =
      andNot s (get_mask a b) ||| (x <<< a) := by
    apply Nat.eq_of_testBit_eq
    intro i
    rw [Nat.testBit_and]
    cases hnpi : (andNot s (get_mask a b) ||| (x <<< a)).testBit i
    · simp
    · rw [Bool.true_and]
      rw [Nat.testBit_or, testBit_andNot, Nat.testBit_shiftLeft,
        Bool.or_eq_true, Bool.and_eq_true, Bool.and_eq_true] at hnpi
      rcases hnpi with h1 | h2
      · exact testBit_of_andNot_eq_zero s m i hsm h1.1
      · obtain ⟨hai, hxi⟩ := h2
        have hia : a ≤ i := of_decide_eq_true hai
        have hib : i - a < b - a := by
          by_contra hge
          have hfx : x.testBit (i - a) = false :=
            Nat.testBit_lt_two_pow
              (lt_of_lt_of_le hx (Nat.pow_le_pow_right (by decide) (by omega)))
          rw [hfx] at hxi
          exact absurd hxi (by decide)
        apply testBit_of_and_self (get_mask a b) m i hwin
        rw [testBit_get_mask a b i (Nat.le_of_lt hab)]
        simp
        omega
  have hblx : ¬((b - a : Nat) < bitLen x) := by
    have := (bitLen_le x (b - a)).mpr hx
    omega
  have hbln : ¬(N < bitLen (andNot s (get_mask a b) ||| (x <<< a))) := by
    have := (bitLen_le _ N).mpr hnp_lt
    omega
  simp only [setsliceFull, setValue, readView, applyMask, View.sizeOpt,
    View.maskOpt, Option.getD_some, truthy, hgm, hx2]
  rw [if_neg (by simp [hcm0]; omega)]
  simp only [hcm0, bne_iff_ne, ne_eq, not_false_eq_true, if_true, hx2, hgm]
  rw [if_neg (by simp [show N ≠ 0 by omega]; omega)]
  simp only [hm, bne_iff_ne, ne_eq, not_false_eq_true, if_true, hnp_m]

/-- Claim C1 (corrected): for a root view whose class mask `m` is non-zero
and covers the slice window (`get_mask a b & m = get_mask a b` — in
particular any class made with `_size_ = N` alone, whose default mask is
`2^N - 1`), any `0 ≤ a < b ≤ N`, any `x` of at most `b - a` bits and any
in-range, in-mask root value, writing `x` as the full value of the child
`c = v[a:b]` succeeds, a re-fetched `v[a:b]` reads back exactly `x`, and
every bit of `v` outside `[a, b)` is unchanged.  When the window escapes the
mask the write can silently drop bits: see `C1_write_through_cex`. -/
theorem C1_write_through_amended (N m a b x s : Nat) (hab : a < b)
    (hbN : b ≤ N) (hm : m ≠ 0) (hwin : get_mask a b &&& m = get_mask a b)
    (hx : x < 2 ^ (b - a)) (hs : s < 2 ^ N) (hsm : andNot s m = 0) :
    ∃ c s2,
      getslice s (View.root (some N) (some m)) (some a) (some b) = .ok c ∧
      setsliceFull s c x = (s2, none) ∧
      getslice s2 (View.root (some N) (some m)) (some a) (some b) = .ok c ∧
      readView s2 c = x ∧
      ∀ i, i < a ∨ b ≤ i → s2.testBit i = s.testBit i := by
  have hcm : (get_mask a b &&& m) >>> a = 2 ^ (b - a) - 1 := by
    rw [hwin, get_mask_eq_shift a b (Nat.le_of_lt hab),
      Nat.shiftLeft_shiftRight]
  have hget : ∀ t : Nat,
      getslice t (View.root (some N) (some m)) (some a) (some b) =
        .ok (View.child (View.root (some N) (some m))
              (b - a) (2 ^ (b - a) - 1) a) := by
    intro t
    rw [getslice_root_mask N m a b t hab hbN, hcm]
  refine ⟨View.child (View.root (some N) (some m)) (b - a) (2 ^ (b - a) - 1) a,
    andNot s (get_mask a b) ||| (x <<< a),
    hget s, setsliceFull_child_mask N m a b x s hab hbN hm hwin hx hs hsm,
    hget _, ?_, ?_⟩
  · simp only [readView]
    rw [get_mask_eq_shift a b (Nat.le_of_lt hab)]
    apply Nat.eq_of_testBit_eq
    intro i
    rw [Nat.testBit_shiftRight, Nat.testBit_and, Nat.testBit_or, testBit_andNot]
    rw [← get_mask_eq_shift a b (Nat.le_of_lt hab)]
    rw [testBit_get_mask a b (a + i) (Nat.le_of_lt hab)]
    rw [Nat.testBit_shiftLeft]
    by_cases hib : i < b - a
    · have h1 : decide (a ≤ a + i ∧ a + i < b) = true := by simp; omega
      have h2 : decide (a ≤ a + i) = true := by simp
      simp only [h1, h2, Bool.not_true, Bool.and_false, Bool.false_or,
        Bool.true_and, Bool.and_true, Nat.add_sub_cancel_left]
    · have h1 : decide (a ≤ a + i ∧ a + i < b) = false := by simp; omega
      have h2 : x.testBit (a + i - a) = false :=
        Nat.testBit_lt_two_pow
          (lt_of_lt_of_le hx (Nat.pow_le_pow_right (by decide) (by omega)))
      have h3 : x.testBit i = false :=
        Nat.testBit_lt_two_pow
          (lt_of_lt_of_le hx (Nat.pow_le_pow_right (by decide) (by omega)))
      simp [h1, h2, h3]
  · intro i hi
    rw [Nat.testBit_or, testBit_andNot, Nat.testBit_shiftLeft]
    rw [testBit_get_mask a b i (Nat.le_of_lt hab)]
    have h1 : decide (a ≤ i ∧ i < b) = false := by simp; omega
    rcases hi with hi | hi
    · have h2 : decide (a ≤ i) = false := by simp; omega
      simp [h1, h2]
    · have h2 : x.testBit (i - a) = false :=
        Nat.testBit_lt_two_pow
          (lt_of_lt_of_le hx (Nat.pow_le_pow_right (by decide) (by omega)))
      simp [h1, h2]

/-- Witness for the corrected C1 at `N = 8`, `m = 0b111100`, `a = 2`,
`b = 5` (window `0b11100` inside the mask), `x = 5`, in-mask value 32. -/
theorem C1_write_through_amended_witness :
    2 < 5 ∧ (5 : Nat) ≤ 8 ∧ (60 : Nat) ≠ 0 ∧
    get_mask 2 5 &&& 60 = get_mask 2 5 ∧ (5 : Nat) < 2 ^ (5 - 2) ∧
    (32 : Nat) < 2 ^ 8 ∧ andNot 32 60 = 0 ∧
    ∃ c s2,
      getslice 32 (View.root (some 8) (some 60)) (some 2) (some 5) = .ok c ∧
      setsliceFull 32 c 5 = (s2, none) ∧
      getslice s2 (View.root (some 8) (some 60)) (some 2) (some 5) = .ok c ∧
      readView s2 c = 5 ∧
      ∀ i, i < 2 ∨ 5 ≤ i → s2.testBit i = (32 : Nat).testBit i :=
  ⟨by decide, by decide, by decide, by decide, by decide, by decide, by decide,
    C1_write_through_amended 8 60 2 5 5 32 (by decide) (by decide) (by decide)
      (by decide) (by decide) (by decide) (by decide)⟩

/-! ### Claim C4: mask reduction at construction (corrected: a zero mask is
falsy in `__init__` and is not applied) -/

/-- Claim C4 counterexample: a class configured with mask `0` stores the
constructor argument unmasked (`if self._mask_:` is false for `0`), so
`BitView(1, mask=0).value()` is `1`, not `1 & 0 = 0` as the claim requires. -/
theorem C4_mask_zero_cex :
    makeType none (some 0) = Except.ok ⟨some 0, some 0⟩ ∧
    init ⟨some 0, some 0⟩ 1 = 1 ∧
    init ⟨some 0, some 0⟩ 1 ≠ 1 &&& 0 :=
  ⟨rfl, rfl, by decide⟩

/-- Claim C4 amended (mask idempotence for non-zero masks): for every value
`x` and every mask `m ≠ 0`, the class built from mask `m` derives size
`bitLen m`, and an instance constructed from `x` stores `x &&& m`; for
`m = 0` the value is stored unmasked (see the counterexample). -/
theorem C4_mask_idempotence_amended (x m : Nat) (hm : m ≠ 0) :
    makeType none (some m) = Except.ok ⟨some (bitLen m), some m⟩ ∧
    init ⟨some (bitLen m), some m⟩ x = x &&& m := by
  refine ⟨rfl, ?_⟩
  simp [init, applyMask, truthy, hm]

/-- Witness for the amended C4 at `x = 77`, `m = 6`. -/
theorem C4_mask_idempotence_witness :
    (6 : Nat) ≠ 0 ∧
    (makeType none (some 6) = Except.ok ⟨some (bitLen 6), some 6⟩ ∧
      init ⟨some (bitLen 6), some 6⟩ 77 = 77 &&& 6) :=
  ⟨by decide, C4_mask_idempotence_amended 77 6 (by decide)⟩

/-! ### Claim C6: overflow demotion in `__add__` vs errors in `__iadd__` -/

/-- Claim C6 (confirmed): on a view with truthy configured size, a
non-mutating addition whose non-negative result needs more bits than the
size returns the plain integer result (not a view), while the in-place
addition on the same operand raises `OverflowError`; and an in-place
addition whose result would be negative raises an error as well. -/
theorem C6_overflow_demotion (sz s : Nat) (mk : Option Nat) (o o2 : Int)
    (hsz : sz ≠ 0)
    (hnn : 0 ≤ (s : Int) + o)
    (hov : sz < intBitLen ((s : Int) + o))
    (hneg : (s : Int) + o2 < 0) :
    addOp ⟨some sz, mk⟩ s o = .ok (.plain ((s : Int) + o)) ∧
    iaddOp s (View.root (some sz) mk) o = (s, some .overflow) ∧
    (iaddOp s (View.root (some sz) mk) o2).2.isSome = true := by
  refine ⟨?_, ?_, ?_⟩
  · simp only [addOp]
    rw [if_neg (by omega), if_pos ⟨by simp [truthy, hsz], by simpa using hov⟩]
  · simp only [iaddOp, View.sizeOpt, readView]
    rw [if_pos ⟨by simp [truthy, hsz], by simpa using hov⟩]
  · simp only [iaddOp, View.sizeOpt, readView]
    by_cases h : truthy (some sz) = true ∧ (some sz).getD 0 < intBitLen ((s : Int) + o2)
    · rw [if_pos h]
      rfl
    · rw [if_neg h, if_pos hneg]
      rfl

/-- Witness for C6: `v = BitView(7, size=3)`; `v + 1` demotes to plain `8`,
`v += 1` raises `OverflowError`, `v += -100` raises. -/
theorem C6_overflow_demotion_witness :
    addOp ⟨some 3, some 7⟩ 7 1 = .ok (.plain 8) ∧
    iaddOp 7 (View.root (some 3) (some 7)) 1 = (7, some .overflow) ∧
    (iaddOp 7 (View.root (some 3) (some 7)) (-100)).2.isSome = true := by
  have h := C6_overflow_demotion 3 7 (some 7) 1 (-100) (by decide) (by decide)
    (by decide) (by decide)
  exact ⟨h.1, h.2.1, h.2.2⟩

/-! ### Claim C9: equality semantics (corrected: a base-class left operand
compares value-only against every view) -/

/-- Claim C9 counterexample: a base `BinField` instance holding 5 compares
equal to a mapped, sized view holding 5 although their resolved mappings and
byte lengths differ — `isinstance(other, self.__class__)` is true for every
view when `self.__class__` is the base class — and the comparison is even
asymmetric (the mapped view does not compare equal to the base instance).
This falsifies the claimed iff for equality of two views. -/
theorem C9_equality_cex :
    eqBF ⟨0, none, none, none, 5⟩
      ⟨1, some 16, some 65535, some [("f", FieldDef.bit 0)], 5⟩ ∧
    (⟨0, none, none, none, 5⟩ : Inst).mp ≠
      (⟨1, some 16, some 65535, some [("f", FieldDef.bit 0)], 5⟩ : Inst).mp ∧
    Inst.byteLen ⟨0, none, none, none, 5⟩ ≠
      Inst.byteLen ⟨1, some 16, some 65535, some [("f", FieldDef.bit 0)], 5⟩ ∧
    ¬ eqBF ⟨1, some 16, some 65535, some [("f", FieldDef.bit 0)], 5⟩
      ⟨0, none, none, none, 5⟩ := by
  refine ⟨?_, ?_, ?_, ?_⟩
  · simp [eqBF]
  · intro h
    simp at h
  · decide
  · simp only [eqBF]
    rw [if_neg (by simp)]
    rintro ⟨-, h, -⟩
    simp at h

/-- Claim C9 amended: a view equals a plain integer iff its resolved value
equals that integer; and when the left operand is of a *generated* class
(not the plain base `BinField` class), it equals another view iff their
resolved values, resolved mappings and byte lengths all match (for the same
generated class the source compares values only, which is equivalent since
a class determines its size and mapping, as the hypothesis records).  A
base-class left operand instead compares by value alone, regardless of
mapping and byte length (see the counterexample).  Parent-link history
enters only through the resolved value carried by `Inst.val`. -/
theorem C9_equality_amended (a b : Inst) (n : Nat)
    (ha : a.clsId ≠ 0)
    (hcls : a.clsId = b.clsId → a.size = b.size ∧ a.mp = b.mp) :
    (eqInt a n ↔ a.val = n) ∧
    (eqBF a b ↔ (a.val = b.val ∧ a.mp = b.mp ∧ a.byteLen = b.byteLen)) := by
  refine ⟨Iff.rfl, ?_⟩
  by_cases hc : a.clsId = b.clsId
  · obtain ⟨hsz, hmp⟩ := hcls hc
    simp only [eqBF, if_pos (Or.inl hc)]
    constructor
    · intro hval
      refine ⟨hval, hmp, ?_⟩
      simp [Inst.byteLen, Inst.bits, hsz, hval]
    · intro h
      exact h.1
  · have hcond : ¬(a.clsId = b.clsId ∨ a.clsId = 0) := by
      rintro (h | h)
      · exact hc h
      · exact ha h
    simp only [eqBF, if_neg hcond]

/-- Witness for the amended C9: a generated-class view holding 5 equals the
integer 5, and two independently constructed views of distinct generated
classes with the same shape and value are equal to each other. -/
theorem C9_equality_amended_witness :
    eqInt ⟨1, none, none, none, 5⟩ 5 ∧
    eqBF ⟨1, none, none, none, 5⟩ ⟨2, none, none, none, 5⟩ := by
  have h := C9_equality_amended ⟨1, none, none, none, 5⟩ ⟨2, none, none, none, 5⟩ 5
    (by decide) (fun h => absurd h (by decide))
  exact ⟨h.1.mpr rfl, h.2.mpr ⟨rfl, rfl, rfl⟩⟩

/-! ### Claim C5: rejected writes leave the state untouched -/

theorem setValue_err_state (s : Nat) (v : View) :
    ∀ x, (setValue s v x).2.isSome = true → (setValue s v x).1 = s := by
  induction v with
  | root sz mk =>
      intro x h
      simp [setValue] at h
  | child p csz cm off ih =>
      intro x
      simp only [setValue]
      split
      · intro _
        rfl
      · exact ih _

theorem setsliceFull_err_state (s : Nat) (v : View) (x : Nat) :
    (setsliceFull s v x).2.isSome = true → (setsliceFull s v x).1 = s := by
  simp only [setsliceFull]
  split
  · intro _
    rfl
  · exact setValue_err_state s v x

theorem setslice_err_state (s : Nat) (v : View) (a b : Option Nat) (x : Nat) :
    (setslice s v a b x).2.isSome = true → (setslice s v a b x).1 = s := by
  simp only [setslice]
  repeat' split
  all_goals first
    | exact setsliceFull_err_state s v x
    | exact setValue_err_state s v _
    | (intro _; rfl)

theorem setitem_err_state (s : Nat) (v : View)
    (mp : Option (List (String × FieldDef))) (k : Key) (val : Val) :
    (setitem s v mp k val).2.isSome = true → (setitem s v mp k val).1 = s := by
  simp only [setitem]
  repeat' split
  all_goals first
    | exact setslice_err_state s v _ _ _
    | (intro _; rfl)

/-- Claim C5 (confirmed): every rejected write through `__setitem__` — a
non-integer payload, a full-value or range write beyond the configured size,
data wider than the destination, an invalid or unresolvable key, or an
overflow detected while propagating through the parent chain — raises before
any state change: the root value (hence the target view's and any parent's
resolved value) is exactly the pre-write state. -/
theorem C5_rejected_write_unchanged (s : Nat) (v : View)
    (mp : Option (List (String × FieldDef))) (k : Key) (val : Val)
    (h : (setitem s v mp k val).2.isSome = true) :
    (setitem s v mp k val).1 = s :=
  setitem_err_state s v mp k val h

/-- Witness for C5: a range write with stop index 9 beyond size 3 is
rejected and leaves the value 5 unchanged. -/
theorem C5_rejected_write_witness :
    (setitem 5 (View.root (some 3) (some 7)) none
      (.slice (some 0) (some 9)) (.int 1)).2.isSome = true ∧
    (setitem 5 (View.root (some 3) (some 7)) none
      (.slice (some 0) (some 9)) (.int 1)).1 = 5 :=
  ⟨by decide, C5_rejected_write_unchanged 5 (View.root (some 3) (some 7)) none
    (.slice (some 0) (some 9)) (.int 1) (by decide)⟩

/-! ### Claim C10: values never escape a non-zero mask -/

theorem andNot_and_self (x m : Nat) : andNot (x &&& m) m = 0 := by
  apply Nat.eq_of_testBit_eq
  intro i
  rw [testBit_andNot, Nat.testBit_and, Nat.zero_testBit]
  cases x.testBit i <;> cases m.testBit i <;> rfl

/-- A linked child's resolved value is inside its class mask at every root
state, because the `_value_` getter recomputes it through `& (mask << off)`. -/
theorem readView_child_masked (s : Nat) (p : View) (csz cm off : Nat) :
    andNot (readView s (View.child p csz cm off)) cm = 0 := by
  apply Nat.eq_of_testBit_eq
  intro i
  rw [testBit_andNot, Nat.zero_testBit, readView, Nat.testBit_shiftRight,
    Nat.testBit_and, Nat.testBit_shiftLeft]
  have h2 : decide (off ≤ off + i) = true := by simp
  rw [h2, Nat.add_sub_cancel_left]
  cases (readView s p).testBit (off + i) <;> cases cm.testBit i <;> rfl

theorem setValue_root_state (s : Nat) (sz : Option Nat) (m x : Nat)
    (hm : m ≠ 0) :
    setValue s (View.root sz (some m)) x = (x &&& m, none) := by
  simp [setValue, applyMask, truthy, hm]

theorem setsliceFull_cases (s : Nat) (v : View) (x : Nat) :
    (∃ e, setsliceFull s v x = (s, some e)) ∨
    (∃ y, setsliceFull s v x = setValue s v y) := by
  simp only [setsliceFull]
  split
  · exact Or.inl ⟨_, rfl⟩
  · exact Or.inr ⟨x, rfl⟩

theorem setslice_cases (s : Nat) (v : View) (a b : Option Nat) (x : Nat) :
    (∃ e, setslice s v a b x = (s, some e)) ∨
    (∃ y, setslice s v a b x = setValue s v y) := by
  simp only [setslice]
  repeat' split
  all_goals first
    | exact setsliceFull_cases s v x
    | exact Or.inl ⟨_, rfl⟩
    | exact Or.inr ⟨_, rfl⟩

theorem setitem_cases (s : Nat) (v : View)
    (mp : Option (List (String × FieldDef))) (k : Key) (val : Val) :
    (∃ e, setitem s v mp k val = (s, some e)) ∨
    (∃ y, setitem s v mp k val = setValue s v y) := by
  simp only [setitem]
  repeat' split
  all_goals first
    | exact setslice_cases s v _ _ _
    | exact Or.inl ⟨_, rfl⟩

theorem iaddOp_cases (s : Nat) (v : View) (o : Int) :
    (∃ e, iaddOp s v o = (s, some e)) ∨
    (∃ y, iaddOp s v o = setValue s v y) := by
  simp only [iaddOp]
  split
  · exact Or.inl ⟨_, rfl⟩
  · split
    · exact Or.inl ⟨_, rfl⟩
    · exact Or.inr ⟨_, rfl⟩

theorem applyOp_cases (s : Nat) (v : View)
    (mp : Option (List (String × FieldDef))) (op : MutOp) :
    (∃ e, applyOp s v mp op = (s, some e)) ∨
    (∃ y, applyOp s v mp op = setValue s v y) := by
  cases op with
  | assign x => exact setsliceFull_cases s v x
  | keyWrite k val => exact setitem_cases s v mp k val
  | andEq o => exact Or.inr ⟨_, rfl⟩
  | orEq o => exact Or.inr ⟨_, rfl⟩
  | xorEq o => exact Or.inr ⟨_, rfl⟩
  | addEq o => exact iaddOp_cases s v o
  | subEq o => exact iaddOp_cases s v (-o)

/-- Claim C10 (confirmed): for a view whose class carries a non-zero mask
`m`, the resolved value never has a bit outside `m`: it holds right after
construction, and after every successful mutating operation (full
assignment, indexed/named writes, in-place and/or/xor, in-place
add/subtract), because every mutation funnels through the `_value_` setter,
which reduces by the mask before storing, and a linked child's read passes
through `& (mask << offset)` regardless. -/
theorem C10_mask_invariant (v : View) (m : Nat)
    (mp : Option (List (String × FieldDef))) (op : MutOp) (s s2 : Nat)
    (hm : View.maskOpt v = some m) (h0 : m ≠ 0)
    (hok : applyOp s v mp op = (s2, none)) :
    andNot (readView s2 v) m = 0 ∧
    ∀ x sz, andNot (init ⟨sz, some m⟩ x) m = 0 := by
  constructor
  · cases v with
    | child p csz cm off =>
        have hcm : cm = m := by
          simpa [View.maskOpt] using hm
        subst hcm
        exact readView_child_masked s2 p csz cm off
    | root sz mk =>
        have hmk : mk = some m := by
          simpa [View.maskOpt] using hm
        subst hmk
        rcases applyOp_cases s (View.root sz (some m)) mp op with ⟨e, he⟩ | ⟨y, hy⟩
        · rw [he] at hok
          exact absurd (congrArg Prod.snd hok) (by simp)
        · rw [hy, setValue_root_state s sz m y h0] at hok
          have hs2 : s2 = y &&& m := (congrArg Prod.fst hok).symm
          subst hs2
          simpa [readView] using andNot_and_self y m
  · intro x sz
    simp only [init, applyMask, truthy]
    simpa [h0] using andNot_and_self x m

/-- Witness for C10: mask 5, assigning 7 stores `7 & 5 = 5`, inside the
mask. -/
theorem C10_mask_invariant_witness :
    View.maskOpt (View.root (some 3) (some 5)) = some 5 ∧
    applyOp 0 (View.root (some 3) (some 5)) none (.assign 7) = (5, none) ∧
    (andNot (readView 5 (View.root (some 3) (some 5))) 5 = 0 ∧
      ∀ x sz, andNot (init ⟨sz, some 5⟩ x) 5 = 0) :=
  ⟨rfl, by decide,
    C10_mask_invariant (View.root (some 3) (some 5)) 5 none (.assign 7) 0 5
      rfl (by decide) (by decide)⟩

/-! ### Claim C3: the concrete nested scenario (corrected)

Schema `{"flag": 0, "block": {"_index_": (1,6), "bit": 0, "pair": (1,3)}}`
with size 8, constructed from `0xFF`.  The claim's first four expected
values hold, but the final write `v["block"]["pair"] = 3` lands at the
*absolute* bits 2-3 of `v` (`pair`'s range is relative to `block`, which
itself starts at bit 1), so the final value is `0b11001101`, not the
claimed `0b11000111`.  The repository's own test
(`test_baseFunc.py`, `test_positive_mapped_nested`) asserts `0b11001101`. -/

/-- Claim C3 counterexample: starting from the claimed intermediate state
`0b11000001`, executing the write `block["pair"] = 3` on the freshly
re-fetched block child produces root value `0b11001101 = 205`, which is not
the claimed `0b11000111 = 199`. -/
theorem C3_nested_scenario_cex :
    setitem 0b11000001 (View.child (View.root (some 8) (some 255)) 5 31 1)
      (some [("bit", FieldDef.bit 0), ("pair", FieldDef.slc 1 (some 3))])
      (.name "pair") (.int 3) = (0b11001101, none) ∧
    (0b11001101 : Nat) ≠ 0b11000111 :=
  ⟨by decide, by decide⟩

/-- Claim C3 amended: with the schema resolved as in the source, a view of
size 8 constructed from `0xFF` has value 255; `v["block"]` reads `0b11111`;
`v["block"]["pair"]` reads `0b11`; after writing 0 as `block`'s whole value
the root reads `0b11000001`; and after `v["block"]["pair"] = 3` on a freshly
re-fetched block the root reads `0b11001101` (not `0b11000111`: `pair` sits
at block-relative bits 1-2, i.e. absolute bits 2-3). -/
theorem C3_nested_scenario_amended :
    prepare [("flag", RawDef.bit 0),
        ("block", RawDef.nested (NIdx.pair 1 6)
          [("bit", RawDef.bit 0), ("pair", RawDef.pair 1 3)])] =
      .ok [("flag", FieldDef.bit 0),
        ("block", FieldDef.nested 1 6
          [("bit", FieldDef.bit 0), ("pair", FieldDef.slc 1 (some 3))])] ∧
    makeType (some 8) none = .ok ⟨some 8, some 255⟩ ∧
    init ⟨some 8, some 255⟩ 255 = 255 ∧
    getitemStr 255 (View.root (some 8) (some 255))
      (some [("flag", FieldDef.bit 0),
        ("block", FieldDef.nested 1 6
          [("bit", FieldDef.bit 0), ("pair", FieldDef.slc 1 (some 3))])])
      "block" = .ok (View.child (View.root (some 8) (some 255)) 5 31 1) ∧
    readView 255 (View.child (View.root (some 8) (some 255)) 5 31 1) =
      0b11111 ∧
    getitemStr 255 (View.child (View.root (some 8) (some 255)) 5 31 1)
      (some [("bit", FieldDef.bit 0), ("pair", FieldDef.slc 1 (some 3))])
      "pair" = .ok (View.child
        (View.child (View.root (some 8) (some 255)) 5 31 1) 2 3 1) ∧
    readView 255 (View.child
      (View.child (View.root (some 8) (some 255)) 5 31 1) 2 3 1) = 0b11 ∧
    setsliceFull 255 (View.child (View.root (some 8) (some 255)) 5 31 1) 0 =
      (0b11000001, none) ∧
    readView 0b11000001 (View.root (some 8) (some 255)) = 0b11000001 ∧
    getitemStr 0b11000001 (View.root (some 8) (some 255))
      (some [("flag", FieldDef.bit 0),
        ("block", FieldDef.nested 1 6
          [("bit", FieldDef.bit 0), ("pair", FieldDef.slc 1 (some 3))])])
      "block" = .ok (View.child (View.root (some 8) (some 255)) 5 31 1) ∧
    setitem 0b11000001 (View.child (View.root (some 8) (some 255)) 5 31 1)
      (some [("bit", FieldDef.bit 0), ("pair", FieldDef.slc 1 (some 3))])
      (.name "pair") (.int 3) = (0b11001101, none) ∧
    readView 0b11001101 (View.root (some 8) (some 255)) = 0b11001101 := by
  refine ⟨?_, rfl, by decide, rfl, by decide, rfl,
    by decide, by decide, by decide, rfl, by decide, by decide⟩
  simp [prepare, prepLoop, sortByStart, insByStart, validList, validEntry,
    extractKeys, startKey, hasNoneKey, startIndex, truthyI, pyAnd, pyOr,
    andNot]
  all_goals first
    | rfl
    | decide

/-! ### Mapping-resolver helper lemmas (used by claims C7 and C8) -/

theorem bindE_ok {ε α β : Type} (a : α) (f : α → Except ε β) :
    (Except.ok a >>= f) = f a := rfl

theorem bindE_err {ε α β : Type} (e : ε) (f : α → Except ε β) :
    ((Except.error e : Except ε α) >>= f) = .error e := rfl

theorem shiftLeft_one_le (a b : Nat) (h : a ≤ b) :
    (1 <<< a : Nat) ≤ 1 <<< b := by
  simp only [Nat.shiftLeft_eq, Nat.one_mul]
  exact Nat.pow_le_pow_right (by decide) h

/-- The Python integer `(1 << b) - (1 << a)` computed by `_get_mask` agrees
with the `Nat`-level `get_mask` when `a ≤ b`. -/
theorem int_mask_eq (a b : Nat) (h : a ≤ b) :
    ((1 <<< b : Nat) : Int) - ((1 <<< a : Nat) : Int) =
      ((get_mask a b : Nat) : Int) := by
  rw [get_mask, Nat.cast_sub (shiftLeft_one_le a b h)]

/-- The bit mask `_prepare_mapping` computes for an entry whose bounds are
non-negative (the domain of the amended C7).  For an open-ended slice it is
the single start bit checked before `cycle_end` is set; a broken or
three-element nested `_index_` never reaches a mask computation. -/
def entryMask : RawDef → Nat
  | .bit i => get_mask i.toNat (i.toNat + 1)
  | .pair a b => get_mask a.toNat b.toNat
  | .slc a (some b) => get_mask (a.getD 0).toNat b.toNat
  | .slc a none => 1 <<< (a.getD 0).toNat
  | .nested (.pair a b) _ => get_mask a.toNat b.toNat
  | .nested (.triple _ _ _) _ => 0
  | .nested .broken _ => 0

/-- The resolved `new_mapping` value of one entry (the per-entry part of the
loop body): ints stay, tuples become slices, slices stay (a `None` start is
normalised to the `0` every consumer reads it as), nested mappings recurse
through `_prepare_mapping`. -/
def resolveEntry : RawDef → Except Err FieldDef
  | .bit i => .ok (.bit i.toNat)
  | .pair a b => .ok (.slc a.toNat (some b.toNat))
  | .slc a b => .ok (.slc (a.getD 0).toNat (b.map Int.toNat))
  | .nested (.pair a b) ch => do
      let sub ← prepare ch
      pure (.nested a.toNat b.toNat sub)
  | .nested (.triple _ _ _) _ => .error .keyTypeErr
  | .nested .broken _ => .error .keyTypeErr

mutual
/-- The entries for which every bound the resolver shifts by is
non-negative and every slice is fully bounded: single bits with a
non-negative index, pairs (the filter already forces `0 ≤ a < b` on them),
fully-bounded slices, and nested mappings whose `_index_` is an ascending
non-negative two-int pair and whose children recursively qualify. -/
def wfEntry : RawDef → Bool
  | .bit i => decide (0 ≤ i)
  | .pair _ _ => true
  | .slc (some _) (some _) => true
  | .slc _ _ => false
  | .nested (.pair a b) ch => decide (0 ≤ a) && decide (a < b) && wfList ch
  | .nested (.triple _ _ _) _ => false
  | .nested .broken _ => false

/-- `wfEntry` over all entries of a mapping. -/
def wfList : List (String × RawDef) → Bool
  | [] => true
  | kv :: rest => wfEntry kv.2 && wfList rest
end

theorem insByStart_perm (x : String × RawDef) (l : List (String × RawDef)) :
    (insByStart x l).Perm (x :: l) := by
  induction l with
  | nil => exact List.Perm.refl _
  | cons y ys ih =>
      simp only [insByStart]
      split
      · exact (List.Perm.cons y ih).trans (List.Perm.swap x y ys)
      · exact List.Perm.refl _

theorem sortByStart_perm (l : List (String × RawDef)) :
    (sortByStart l).Perm l := by
  induction l with
  | nil => exact List.Perm.refl _
  | cons x xs ih =>
      exact (insByStart_perm x (sortByStart xs)).trans (List.Perm.cons x ih)

theorem validList_insByStart (x : String × RawDef)
    (l : List (String × RawDef)) :
    validList (insByStart x l) = (validEntry x.2 && validList l) := by
  induction l with
  | nil => simp [insByStart, validList]
  | cons y ys ih =>
      simp only [insByStart]
      split
      · simp [validList, ih, Bool.and_left_comm]
      · simp [validList]

theorem validList_sortByStart (l : List (String × RawDef)) :
    validList (sortByStart l) = validList l := by
  induction l with
  | nil => rfl
  | cons x xs ih =>
      simp only [sortByStart, List.foldr] at ih ⊢
      rw [validList_insByStart, ih]
      simp [validList]

theorem wfList_insByStart (x : String × RawDef)
    (l : List (String × RawDef)) :
    wfList (insByStart x l) = (wfEntry x.2 && wfList l) := by
  induction l with
  | nil => simp [insByStart, wfList]
  | cons y ys ih =>
      simp only [insByStart]
      split
      · simp [wfList, ih, Bool.and_left_comm]
      · simp [wfList]

theorem wfList_sortByStart (l : List (String × RawDef)) :
    wfList (sortByStart l) = wfList l := by
  induction l with
  | nil => rfl
  | cons x xs ih =>
      simp only [sortByStart, List.foldr] at ih ⊢
      rw [wfList_insByStart, ih]
      simp [wfList]

/-- Every sort key of a well-formed mapping is computed without raising. -/
theorem extractKeys_of_wf (l : List (String × RawDef)) (hw : wfList l = true) :
    extractKeys l = .ok () := by
  induction l with
  | nil => rfl
  | cons hd rest ih =>
      obtain ⟨k, v⟩ := hd
      rw [wfList, Bool.and_eq_true] at hw
      obtain ⟨hwv, hwr⟩ := hw
      have hs : ∃ x, startKey v = .ok x := by
        cases v with
        | bit i => exact ⟨_, rfl⟩
        | pair a b => exact ⟨_, rfl⟩
        | slc sa sb =>
            cases sa with
            | none => cases sb <;> simp [wfEntry] at hwv
            | some a => exact ⟨_, rfl⟩
        | nested idx ch =>
            cases idx with
            | pair a b => exact ⟨_, rfl⟩
            | triple a b c => exact ⟨_, rfl⟩
            | broken => simp [wfEntry] at hwv
      obtain ⟨x, hx⟩ := hs
      simp [extractKeys, hx, ih hwr]

/-- A well-formed mapping has no `None` sort key. -/
theorem hasNoneKey_of_wf (l : List (String × RawDef)) (hw : wfList l = true) :
    hasNoneKey l = false := by
  induction l with
  | nil => rfl
  | cons hd rest ih =>
      obtain ⟨k, v⟩ := hd
      rw [wfList, Bool.and_eq_true] at hw
      obtain ⟨hwv, hwr⟩ := hw
      cases v with
      | bit i => simpa [hasNoneKey] using ih hwr
      | pair a b => simpa [hasNoneKey] using ih hwr
      | slc sa sb =>
          cases sa with
          | none => cases sb <;> simp [wfEntry] at hwv
          | some a => simpa [hasNoneKey] using ih hwr
      | nested idx ch => simpa [hasNoneKey] using ih hwr

/-- On a well-formed, filter-valid mapping `_prepare_mapping` reaches the
sorted loop: the filter, the key decoration and the sort all pass. -/
theorem prepare_of_wf (l : List (String × RawDef)) (hv : validList l = true)
    (hw : wfList l = true) :
    prepare l = prepLoop ((0 : Nat) : Int) false (sortByStart l) := by
  simp [prepare, hv, extractKeys_of_wf l hw, hasNoneKey_of_wf l hw]

/-- A successful `_prepare_mapping` means the sorted loop ran and succeeded
(every pre-loop check passed). -/
theorem prepare_eq_cases (l : List (String × RawDef))
    (r : List (String × FieldDef)) (hok : prepare l = .ok r) :
    prepLoop 0 false (sortByStart l) = .ok r := by
  by_cases hv : validList l = true
  · cases hE : extractKeys l with
    | error e =>
        have h : prepare l = .error e := by simp [prepare, hv, hE]
        rw [h] at hok
        simp at hok
    | ok u =>
        by_cases hnk : 2 ≤ l.length ∧ hasNoneKey l = true
        · have h : prepare l = .error .keyTypeErr := by
            simp [prepare, hv, hE, hnk]
          rw [h] at hok
          simp at hok
        · have h : prepare l = prepLoop 0 false (sortByStart l) := by
            simp [prepare, hv, hE, hnk]
          rw [← h]
          exact hok
  · have h : prepare l = .error .unexpectedData := by simp [prepare, hv]
    rw [h] at hok
    simp at hok

/-- With `cycle_end` already set, the loop raises the trailing error on the
very next entry. -/
theorem prepLoop_cycleEnd_cons (mm : Int) (x : String × RawDef)
    (xs : List (String × RawDef)) :
    prepLoop mm true (x :: xs) = .error (.trailing x.1) := by
  obtain ⟨k, v⟩ := x
  rw [prepLoop.eq_def]
  simp

/-- One loop step on a filter-valid, well-formed entry whose mask collides
with the accumulated mask: the overlap `IndexError` is raised, carrying the
colliding bits. -/
theorem prepLoop_step_overlap (mmN : Nat) (k : String) (v : RawDef)
    (rest : List (String × RawDef)) (hv : validEntry v = true)
    (hw : wfEntry v = true) (hc : ¬(mmN &&& entryMask v = 0)) :
    prepLoop ((mmN : Nat) : Int) false ((k, v) :: rest) =
      .error (.overlap k ((mmN &&& entryMask v : Nat) : Int)) := by
  cases v with
  | bit i =>
      simp only [wfEntry, decide_eq_true_eq] at hw
      simp only [entryMask] at hc ⊢
      have hne : ¬(i < 0) := by omega
      simp [prepLoop, hne, int_mask_eq i.toNat (i.toNat + 1) (Nat.le_succ _),
        pyAnd_coe, hc]
  | pair a b =>
      simp only [validEntry, Bool.and_eq_true, decide_eq_true_eq] at hv
      obtain ⟨ha, hab⟩ := hv
      simp only [entryMask] at hc ⊢
      have hne : ¬(b < 0 ∨ a < 0) := by omega
      simp [prepLoop, hne,
        int_mask_eq a.toNat b.toNat (Int.toNat_le_toNat (le_of_lt hab)),
        pyAnd_coe, hc]
  | slc sa sb =>
      cases sa with
      | none => cases sb <;> simp [wfEntry] at hw
      | some a =>
          cases sb with
          | none => simp [wfEntry] at hw
          | some b =>
              simp only [validEntry, Bool.and_eq_true, decide_eq_true_eq] at hv
              obtain ⟨ha, hab⟩ := hv
              simp only [entryMask, Option.getD_some] at hc ⊢
              have hne : ¬(b < 0 ∨ a < 0) := by omega
              have ht : truthyI (some b) = true := by
                simp [truthyI]
                omega
              simp [prepLoop, ht, hne,
                int_mask_eq a.toNat b.toNat (Int.toNat_le_toNat (le_of_lt hab)),
                pyAnd_coe, hc]
  | nested idx ch =>
      cases idx with
      | broken => simp [wfEntry] at hw
      | triple a b c => simp [wfEntry] at hw
      | pair a b =>
          simp only [wfEntry, Bool.and_eq_true, decide_eq_true_eq] at hw
          obtain ⟨⟨ha, hab⟩, hwch⟩ := hw
          simp only [entryMask] at hc ⊢
          have hne : ¬(b < 0 ∨ a < 0) := by omega
          simp [prepLoop, hne,
            int_mask_eq a.toNat b.toNat (Int.toNat_le_toNat (le_of_lt hab)),
            pyAnd_coe, hc]

/-- One loop step on a filter-valid, well-formed entry whose mask is
disjoint from the accumulated mask: the entry resolves and the loop
continues with the accumulated mask widened by the entry's mask. -/
theorem prepLoop_step_clear (mmN : Nat) (k : String) (v : RawDef)
    (rest : List (String × RawDef)) (hv : validEntry v = true)
    (hw : wfEntry v = true) (hc : mmN &&& entryMask v = 0) :
    prepLoop ((mmN : Nat) : Int) false ((k, v) :: rest) =
      (do
        let f ← resolveEntry v
        let r ← prepLoop ((mmN ||| entryMask v : Nat) : Int) false rest
        pure ((k, f) :: r)) := by
  cases v with
  | bit i =>
      simp only [wfEntry, decide_eq_true_eq] at hw
      simp only [entryMask] at hc ⊢
      have hne : ¬(i < 0) := by omega
      simp [prepLoop, hne, int_mask_eq i.toNat (i.toNat + 1) (Nat.le_succ _),
        pyAnd_coe, pyOr_coe, hc, resolveEntry, bindE_ok]
  | pair a b =>
      simp only [validEntry, Bool.and_eq_true, decide_eq_true_eq] at hv
      obtain ⟨ha, hab⟩ := hv
      simp only [entryMask] at hc ⊢
      have hne : ¬(b < 0 ∨ a < 0) := by omega
      simp [prepLoop, hne,
        int_mask_eq a.toNat b.toNat (Int.toNat_le_toNat (le_of_lt hab)),
        pyAnd_coe, pyOr_coe, hc, resolveEntry, bindE_ok]
  | slc sa sb =>
      cases sa with
      | none => cases sb <;> simp [wfEntry] at hw
      | some a =>
          cases sb with
          | none => simp [wfEntry] at hw
          | some b =>
              simp only [validEntry, Bool.and_eq_true, decide_eq_true_eq] at hv
              obtain ⟨ha, hab⟩ := hv
              simp only [entryMask, Option.getD_some] at hc ⊢
              have hne : ¬(b < 0 ∨ a < 0) := by omega
              have ht : truthyI (some b) = true := by
                simp [truthyI]
                omega
              simp [prepLoop, ht, hne,
                int_mask_eq a.toNat b.toNat (Int.toNat_le_toNat (le_of_lt hab)),
                pyAnd_coe, pyOr_coe, hc, resolveEntry, bindE_ok]
  | nested idx ch =>
      cases idx with
      | broken => simp [wfEntry] at hw
      | triple a b c => simp [wfEntry] at hw
      | pair a b =>
          simp only [wfEntry, Bool.and_eq_true, decide_eq_true_eq] at hw
          obtain ⟨⟨ha, hab⟩, hwch⟩ := hw
          simp only [entryMask] at hc ⊢
          have hne : ¬(b < 0 ∨ a < 0) := by omega
          cases hP : prepare ch with
          | error e =>
              simp [prepLoop, hne,
                int_mask_eq a.toNat b.toNat (Int.toNat_le_toNat (le_of_lt hab)),
                pyAnd_coe, pyOr_coe, hc, resolveEntry, hP, bindE_ok, bindE_err]
          | ok sub =>
              simp [prepLoop, hne,
                int_mask_eq a.toNat b.toNat (Int.toNat_le_toNat (le_of_lt hab)),
                pyAnd_coe, pyOr_coe, hc, resolveEntry, hP, bindE_ok]

/-- An `Except` bind that succeeded: both stages succeeded. -/
theorem bind_ok_inv {ε α β : Type} (x : Except ε α) (f : α → Except ε β)
    (b : β) (h : (x >>= f) = .ok b) : ∃ a, x = .ok a ∧ f a = .ok b := by
  cases x with
  | error e =>
      rw [bindE_err] at h
      exact absurd h (by simp)
  | ok a => exact ⟨a, rfl, h⟩

/-- Once an open-ended entry is anywhere before the end of the processed
list, the loop can never succeed (whatever the accumulated mask or flag). -/
theorem prepLoop_after_open (l1 : List (String × RawDef)) :
    ∀ (mm : Int) (c : Bool) (k0 : String) (sa0 : Option Int)
      (l2 : List (String × RawDef)) (r : List (String × FieldDef)),
      l2 ≠ [] →
      prepLoop mm c (l1 ++ (k0, RawDef.slc sa0 none) :: l2) ≠ .ok r := by
  induction l1 with
  | nil =>
      intro mm c k0 sa0 l2 r hl2 hok
      cases c with
      | true =>
          rw [List.nil_append, prepLoop_cycleEnd_cons] at hok
          simp at hok
      | false =>
          cases l2 with
          | nil => exact hl2 rfl
          | cons y ys =>
              rw [List.nil_append] at hok
              cases sa0 with
              | none =>
                  simp only [prepLoop, truthyI] at hok
                  repeat' split at hok
                  all_goals first
                    | (simp at hok; done)
                    | simp_all
              | some a0 =>
                  simp only [prepLoop, truthyI] at hok
                  repeat' split at hok
                  all_goals first
                    | (simp at hok; done)
                    | (obtain ⟨a1, h1, h2⟩ := bind_ok_inv _ _ _ hok
                       rw [prepLoop_cycleEnd_cons] at h1
                       simp at h1)
                    | simp_all
  | cons hd l1' ih =>
      intro mm c k0 sa0 l2 r hl2 hok
      obtain ⟨k, v⟩ := hd
      cases c with
      | true =>
          rw [List.cons_append, prepLoop_cycleEnd_cons] at hok
          simp at hok
      | false =>
          rw [List.cons_append] at hok
          have close : ∀ (mm2 : Int) (c2 : Bool) (a1 : List (String × FieldDef)),
              prepLoop mm2 c2 (l1' ++ (k0, RawDef.slc sa0 none) :: l2) =
                .ok a1 → False := by
            intro mm2 c2 a1 h1
            exact ih mm2 c2 k0 sa0 l2 a1 hl2 h1
          cases v with
          | bit i =>
              simp only [prepLoop, truthyI] at hok
              repeat' split at hok
              all_goals first
                | (simp at hok; done)
                | (obtain ⟨a1, h1, h2⟩ := bind_ok_inv _ _ _ hok
                   exact close _ _ _ h1)
                | simp_all
          | pair a b =>
              simp only [prepLoop, truthyI] at hok
              repeat' split at hok
              all_goals first
                | (simp at hok; done)
                | (obtain ⟨a1, h1, h2⟩ := bind_ok_inv _ _ _ hok
                   exact close _ _ _ h1)
                | simp_all
          | slc sa sb =>
              cases sa with
              | none =>
                  cases sb with
                  | none =>
                      simp only [prepLoop, truthyI] at hok
                      repeat' split at hok
                      all_goals first
                        | (simp at hok; done)
                        | (obtain ⟨a1, h1, h2⟩ := bind_ok_inv _ _ _ hok
                           exact close _ _ _ h1)
                        | simp_all
                  | some b =>
                      simp only [prepLoop, truthyI] at hok
                      repeat' split at hok
                      all_goals first
                        | (simp at hok; done)
                        | (obtain ⟨a1, h1, h2⟩ := bind_ok_inv _ _ _ hok
                           exact close _ _ _ h1)
                        | simp_all
              | some a =>
                  cases sb with
                  | none =>
                      simp only [prepLoop, truthyI] at hok
                      repeat' split at hok
                      all_goals first
                        | (simp at hok; done)
                        | (obtain ⟨a1, h1, h2⟩ := bind_ok_inv _ _ _ hok
                           exact close _ _ _ h1)
                        | simp_all
                  | some b =>
                      simp only [prepLoop, truthyI] at hok
                      repeat' split at hok
                      all_goals first
                        | (simp at hok; done)
                        | (obtain ⟨a1, h1, h2⟩ := bind_ok_inv _ _ _ hok
                           exact close _ _ _ h1)
                        | simp_all
          | nested idx ch =>
              cases idx with
              | broken =>
                  simp only [prepLoop] at hok
                  simp at hok
              | triple a b c2 =>
                  simp only [prepLoop] at hok
                  simp at hok
              | pair a b =>
                  simp only [prepLoop, truthyI] at hok
                  repeat' split at hok
                  all_goals first
                    | (simp at hok; done)
                    | (obtain ⟨a1, h1, h2⟩ := bind_ok_inv _ _ _ hok
                       first
                         | exact close _ _ _ h1
                         | (obtain ⟨a2, h3, h4⟩ := bind_ok_inv _ _ _ h2
                            exact close _ _ _ h3))
                    | simp_all

/-! ### Claim C8: entries after an open-ended entry (corrected) -/

/-- Claim C8 counterexample: in `{"a": (0,2), "b": slice(1, None), "c": 3}`
the entry `c` follows the open-ended entry `b` in sorted order, yet
resolution fails with the *overlap* error (`b`'s start bit collides with
`a`), not with the trailing-after-open-ended error the claim requires. -/
theorem C8_trailing_cex :
    sortByStart [("a", RawDef.pair 0 2), ("b", RawDef.slc (some 1) none),
        ("c", RawDef.bit 3)] =
      [("a", RawDef.pair 0 2), ("b", RawDef.slc (some 1) none),
        ("c", RawDef.bit 3)] ∧
    prepare [("a", RawDef.pair 0 2), ("b", RawDef.slc (some 1) none),
        ("c", RawDef.bit 3)] = .error (.overlap "b" 2) ∧
    ∀ k, (Err.overlap "b" 2) ≠ Err.trailing k := by
  refine ⟨rfl, ?_, by intro k h; cases h⟩
  simp [prepare, prepLoop, sortByStart, insByStart, validList, validEntry,
    extractKeys, startKey, hasNoneKey, startIndex, truthyI, pyAnd, pyOr,
    andNot]
  all_goals first
    | rfl
    | decide

/-- Claim C8 amended: whenever, after sorting by start bit, some entry
follows an open-ended entry, schema resolution never produces a mapping — it
always fails, with the trailing-after-open-ended error when no earlier entry
raises first (as in the concrete `{"a": 0, "b": slice(1, None), "c": 2}`),
but possibly with an overlap or validation error of an earlier entry
instead. -/
theorem C8_trailing_amended (l l1 l2 : List (String × RawDef)) (k0 : String)
    (sa0 : Option Int)
    (hsplit : sortByStart l = l1 ++ (k0, RawDef.slc sa0 none) :: l2)
    (hl2 : l2 ≠ []) (r : List (String × FieldDef)) :
    prepare l ≠ .ok r := by
  intro hok
  have h := prepare_eq_cases l r hok
  rw [hsplit] at h
  exact prepLoop_after_open l1 0 false k0 sa0 l2 r hl2 h

/-- Witness for the amended C8: the concrete
`{"a": 0, "b": slice(1, None), "c": 2}` never resolves, and fails with the
trailing error naming `c`. -/
theorem C8_trailing_amended_witness :
    (∀ r, prepare [("a", RawDef.bit 0), ("b", RawDef.slc (some 1) none),
        ("c", RawDef.bit 2)] ≠ .ok r) ∧
    prepare [("a", RawDef.bit 0), ("b", RawDef.slc (some 1) none),
        ("c", RawDef.bit 2)] = .error (.trailing "c") := by
  constructor
  · intro r
    exact C8_trailing_amended
      [("a", RawDef.bit 0), ("b", RawDef.slc (some 1) none),
        ("c", RawDef.bit 2)]
      [("a", RawDef.bit 0)] [("c", RawDef.bit 2)]
      "b" (some 1) rfl (by simp) r
  · simp [prepare, prepLoop, sortByStart, insByStart, validList, validEntry,
      extractKeys, startKey, hasNoneKey, startIndex, truthyI, pyAnd, pyOr,
      andNot]
    all_goals first
      | rfl
      | decide

/-! ### Claim C7: overlapping entries (corrected) -/

theorem lor_and_eq_zero_iff (a b c : Nat) :
    ((a ||| b) &&& c = 0) ↔ (a &&& c = 0 ∧ b &&& c = 0) := by
  rw [Nat.and_distrib_right]
  constructor
  · intro h
    constructor
    · apply Nat.zero_of_testBit_eq_false
      intro i
      have h2 := congrArg (fun t => Nat.testBit t i) h
      simp only [Nat.testBit_or, Nat.zero_testBit, Bool.or_eq_false_iff] at h2
      exact h2.1
    · apply Nat.zero_of_testBit_eq_false
      intro i
      have h2 := congrArg (fun t => Nat.testBit t i) h
      simp only [Nat.testBit_or, Nat.zero_testBit, Bool.or_eq_false_iff] at h2
      exact h2.2
  · rintro ⟨h1, h2⟩
    rw [h1, h2]
    rfl

/-- A successful pass of the `_prepare_mapping` loop (with `cycle_end`
still unset) means every processed entry's mask was disjoint both from the
incoming accumulated mask and from every other processed entry's mask. -/
theorem prepLoop_ok_disjoint (l : List (String × RawDef)) :
    ∀ (mmN : Nat) (r : List (String × FieldDef)), validList l = true →
      wfList l = true → prepLoop ((mmN : Nat) : Int) false l = .ok r →
      (∀ x ∈ l, mmN &&& entryMask x.2 = 0) ∧
      l.Pairwise (fun x y => entryMask x.2 &&& entryMask y.2 = 0) := by
  induction l with
  | nil =>
      intro mmN r _ _ _
      exact ⟨by simp, List.Pairwise.nil⟩
  | cons hd rest ih =>
      intro mmN r hv hw hok
      obtain ⟨k, v⟩ := hd
      rw [validList, Bool.and_eq_true] at hv
      obtain ⟨hvv, hvr⟩ := hv
      rw [wfList, Bool.and_eq_true] at hw
      obtain ⟨hwv, hwr⟩ := hw
      by_cases hg : mmN &&& entryMask v = 0
      · rw [prepLoop_step_clear mmN k v rest hvv hwv hg] at hok
        cases hF : resolveEntry v with
        | error e =>
            rw [hF, bindE_err] at hok
            simp at hok
        | ok f =>
            rw [hF, bindE_ok] at hok
            cases hE : prepLoop ((mmN ||| entryMask v : Nat) : Int)
                false rest with
            | error e =>
                rw [hE, bindE_err] at hok
                simp at hok
            | ok rr =>
                have h2 := ih (mmN ||| entryMask v) rr hvr hwr hE
                refine ⟨?_, ?_⟩
                · intro x hx
                  rcases List.mem_cons.mp hx with hx | hx
                  · subst hx
                    exact hg
                  · exact ((lor_and_eq_zero_iff _ _ _).mp (h2.1 x hx)).1
                · refine List.Pairwise.cons ?_ h2.2
                  intro y hy
                  exact ((lor_and_eq_zero_iff _ _ _).mp (h2.1 y hy)).2
      · rw [prepLoop_step_overlap mmN k v rest hvv hwv hg] at hok
        simp at hok

/-- Under filter-valid, well-formed entries, the loop either succeeds or
raises an overlap error carrying a non-empty colliding-bits mask. -/
theorem prepLoop_classify (n : Nat) :
    ∀ (l : List (String × RawDef)) (mmN : Nat),
      sizeOf l ≤ n → validList l = true → wfList l = true →
      (∃ r, prepLoop ((mmN : Nat) : Int) false l = .ok r) ∨
      (∃ k bits, prepLoop ((mmN : Nat) : Int) false l =
        .error (.overlap k bits) ∧ bits ≠ 0) := by
  induction n with
  | zero =>
      intro l mm hsz _ _
      exfalso
      cases l with
      | nil => simp at hsz
      | cons h t => simp at hsz
  | succ n ih =>
      intro l mmN hsz hv hw
      cases l with
      | nil => exact Or.inl ⟨[], by simp [prepLoop]⟩
      | cons hd rest =>
          obtain ⟨k, v⟩ := hd
          rw [validList, Bool.and_eq_true] at hv
          obtain ⟨hvv, hvr⟩ := hv
          rw [wfList, Bool.and_eq_true] at hw
          obtain ⟨hwv, hwr⟩ := hw
          have hszr : sizeOf rest ≤ n := by
            simp only [List.cons.sizeOf_spec] at hsz
            omega
          by_cases hg : mmN &&& entryMask v = 0
          · have hres : (∃ f, resolveEntry v = .ok f) ∨
                (∃ k2 bits, resolveEntry v = .error (.overlap k2 bits) ∧
                  bits ≠ 0) := by
              cases v with
              | bit i => exact Or.inl ⟨_, rfl⟩
              | pair a b => exact Or.inl ⟨_, rfl⟩
              | slc sa sb => exact Or.inl ⟨_, rfl⟩
              | nested idx ch =>
                  cases idx with
                  | broken => simp [wfEntry] at hwv
                  | triple a b c => simp [wfEntry] at hwv
                  | pair a b =>
                      have hwch : wfList ch = true := by
                        simp only [wfEntry, Bool.and_eq_true] at hwv
                        exact hwv.2
                      have hvch : validList ch = true := by
                        simpa [validEntry] using hvv
                      have hszch : sizeOf (sortByStart ch) ≤ n := by
                        rw [sizeOf_sortByStart]
                        simp only [List.cons.sizeOf_spec, Prod.mk.sizeOf_spec,
                          RawDef.nested.sizeOf_spec] at hsz
                        omega
                      have hRE : resolveEntry (RawDef.nested (NIdx.pair a b) ch)
                          = (do
                              let sub ← prepare ch
                              pure (FieldDef.nested a.toNat b.toNat sub)) := rfl
                      rcases ih (sortByStart ch) 0 hszch
                          (by rw [validList_sortByStart]; exact hvch)
                          (by rw [wfList_sortByStart]; exact hwch) with
                        ⟨sub, hPs⟩ | ⟨k2, bits, hPs, hb⟩
                      · refine Or.inl ⟨FieldDef.nested a.toNat b.toNat sub, ?_⟩
                        have hP : prepare ch = .ok sub := by
                          rw [prepare_of_wf ch hvch hwch]
                          exact hPs
                        rw [hRE, hP, bindE_ok]
                        rfl
                      · refine Or.inr ⟨k2, bits, ?_, hb⟩
                        have hP : prepare ch = .error (.overlap k2 bits) := by
                          rw [prepare_of_wf ch hvch hwch]
                          exact hPs
                        rw [hRE, hP, bindE_err]
            rcases hres with ⟨f, hF⟩ | ⟨k2, bits, hF, hb⟩
            · rcases ih rest (mmN ||| entryMask v) hszr hvr hwr with
                ⟨r, hE⟩ | ⟨k2, bits, hE, hb⟩
              · exact Or.inl ⟨(k, f) :: r,
                  by rw [prepLoop_step_clear mmN k v rest hvv hwv hg, hF,
                    bindE_ok, hE, bindE_ok]; rfl⟩
              · exact Or.inr ⟨k2, bits,
                  by rw [prepLoop_step_clear mmN k v rest hvv hwv hg, hF,
                    bindE_ok, hE, bindE_err], hb⟩
            · exact Or.inr ⟨k2, bits,
                by rw [prepLoop_step_clear mmN k v rest hvv hwv hg, hF,
                  bindE_err], hb⟩
          · exact Or.inr ⟨k, ((mmN &&& entryMask v : Nat) : Int),
              by rw [prepLoop_step_overlap mmN k v rest hvv hwv hg],
              by simpa using hg⟩

theorem prepare_classify (l : List (String × RawDef)) (hv : validList l = true)
    (hw : wfList l = true) :
    (∃ r, prepare l = .ok r) ∨
    (∃ k bits, prepare l = .error (.overlap k bits) ∧ bits ≠ 0) := by
  have he := prepare_of_wf l hv hw
  rcases prepLoop_classify (sizeOf (sortByStart l)) (sortByStart l) 0
      (Nat.le_refl _) (by rw [validList_sortByStart]; exact hv)
      (by rw [wfList_sortByStart]; exact hw) with ⟨r, hE⟩ | ⟨k, bits, hE, hb⟩
  · exact Or.inl ⟨r, by rw [he]; exact hE⟩
  · exact Or.inr ⟨k, bits, by rw [he]; exact hE, hb⟩

theorem prepare_ok_disjoint (l : List (String × RawDef))
    (r : List (String × FieldDef)) (hv : validList l = true)
    (hw : wfList l = true) (hok : prepare l = .ok r) :
    l.Pairwise (fun x y => entryMask x.2 &&& entryMask y.2 = 0) := by
  rw [prepare_of_wf l hv hw] at hok
  have h := (prepLoop_ok_disjoint (sortByStart l) 0 r
    (by rw [validList_sortByStart]; exact hv)
    (by rw [wfList_sortByStart]; exact hw) hok).2
  exact (List.Perm.pairwise_iff
    (fun {x y} hxy => (Nat.and_comm _ _).trans hxy) (sortByStart_perm l)).mp h

/-- Claim C7 counterexample: three filter-passing schemas on which the
claim's promised overlap error does not surface.  In
`{"x": (2,4), "y": (3,5), "o": slice(0, None)}` the bounded entries `x` and
`y` share bit 3, yet resolution fails with the trailing-after-open-ended
error (the open-ended `o` sorts first).  In
`{"x": -3, "y": (0,2), "z": (1,3)}` the entries `y` and `z` share bit 1,
yet resolution fails with the negative-shift `ValueError` raised by
`_get_mask(-3, -2)`.  In `{"x": slice(None, 2), "y": (1,3)}` the entries
share bit 1, yet `sorted` raises `TypeError` comparing the `None` start
key. -/
theorem C7_overlap_cex :
    prepare [("x", RawDef.pair 2 4), ("y", RawDef.pair 3 5),
        ("o", RawDef.slc (some 0) none)] = .error (.trailing "x") ∧
    entryMask (RawDef.pair 2 4) &&& entryMask (RawDef.pair 3 5) ≠ 0 ∧
    (∀ k bits, (Err.trailing "x") ≠ Err.overlap k bits) ∧
    prepare [("x", RawDef.bit (-3)), ("y", RawDef.pair 0 2),
        ("z", RawDef.pair 1 3)] = .error .negShift ∧
    entryMask (RawDef.pair 0 2) &&& entryMask (RawDef.pair 1 3) ≠ 0 ∧
    prepare [("x", RawDef.slc none (some 2)), ("y", RawDef.pair 1 3)] =
      .error .keyTypeErr ∧
    entryMask (RawDef.slc none (some 2)) &&& entryMask (RawDef.pair 1 3) ≠
      0 := by
  refine ⟨?_, by decide, (by intro k bits h; cases h), ?_, by decide, ?_,
    by decide⟩
  · simp [prepare, prepLoop, sortByStart, insByStart, validList, validEntry,
      extractKeys, startKey, hasNoneKey, startIndex, truthyI, pyAnd, pyOr,
      andNot]
    all_goals first
      | rfl
      | decide
  · simp [prepare, prepLoop, sortByStart, insByStart, validList, validEntry,
      extractKeys, startKey, hasNoneKey, startIndex, truthyI, pyAnd, pyOr,
      andNot]
    all_goals first
      | rfl
      | decide
  · simp [prepare, prepLoop, sortByStart, insByStart, validList, validEntry,
      extractKeys, startKey, hasNoneKey, startIndex, truthyI, pyAnd, pyOr,
      andNot]
    all_goals first
      | rfl
      | decide

/-- Claim C7 amended: for a schema whose entries all pass the mapping filter
and are well formed — non-negative single-bit indexes, no slice missing a
bound, every nested `_index_` an ascending non-negative two-int pair,
recursively — whenever two distinct entries' bit masks share a bit,
resolution fails with an overlap error carrying a non-empty colliding-bits
mask, and no usable mapping is produced; the concrete
`{"x": (0,2), "y": (1,3)}` fails with the overlap error identifying bit 1.
Outside that domain the failure can surface as the trailing-after-open-ended
`IndexError`, the negative-shift `ValueError`, or the `TypeError` of
`sorted`/`_get_mask` instead (see the counterexamples). -/
theorem C7_overlap_amended (l : List (String × RawDef)) (i j : Fin l.length)
    (hv : validList l = true) (hw : wfList l = true) (hij : i ≠ j)
    (hshare : entryMask (l.get i).2 &&& entryMask (l.get j).2 ≠ 0) :
    ∃ k bits, prepare l = .error (.overlap k bits) ∧ bits ≠ 0 := by
  rcases prepare_classify l hv hw with ⟨r, hok⟩ | h
  · exfalso
    have hp := prepare_ok_disjoint l r hv hw hok
    rw [List.pairwise_iff_get] at hp
    rcases lt_trichotomy i j with h | h | h
    · exact hshare (hp i j h)
    · exact hij h
    · exact hshare ((Nat.and_comm _ _).trans (hp j i h))
  · exact h

/-- Witness for the amended C7: `{"x": (0,2), "y": (1,3)}` fails with an
overlap error, concretely `overlap "y" 0b10` — colliding bit 1. -/
theorem C7_overlap_amended_witness :
    validList [("x", RawDef.pair 0 2), ("y", RawDef.pair 1 3)] = true ∧
    wfList [("x", RawDef.pair 0 2), ("y", RawDef.pair 1 3)] = true ∧
    (∃ k bits, prepare [("x", RawDef.pair 0 2), ("y", RawDef.pair 1 3)] =
      .error (.overlap k bits) ∧ bits ≠ 0) ∧
    prepare [("x", RawDef.pair 0 2), ("y", RawDef.pair 1 3)] =
      .error (.overlap "y" 2) := by
  refine ⟨by decide, by decide, ?_, ?_⟩
  · exact C7_overlap_amended [("x", RawDef.pair 0 2), ("y", RawDef.pair 1 3)]
      ⟨0, by decide⟩ ⟨1, by decide⟩ (by decide) (by decide) (by decide)
      (by decide)
  · simp [prepare, prepLoop, sortByStart, insByStart, validList, validEntry,
      extractKeys, startKey, hasNoneKey, startIndex, truthyI, pyAnd, pyOr,
      andNot]
    all_goals first
      | rfl
      | decide

end Binfield
